import Mathlib

/-!
Dynamic occupancy grid map: visualisation and cell selection.

A shallow embedding of `src/dogm/demo/utils/image_creation.cpp` together with the
cell record of `src/include/occupancy_grid_map.h`.

Modelling conventions.

* `float` and `double` values are rationals (`ℚ`); every finite `float` is a rational.
  Where the result of a computation depends on the rounding of its operations, the
  function takes a `Rounding`: `ieee754` rounds every `float` result to binary32 and
  every `double` result to binary64 (round to nearest, ties to even; overflow to
  infinity and NaN are not modelled), `exactArith` does not round.  The functions that
  are stated without a `Rounding` use exact arithmetic: `pignistic_transformation`, the
  raw measurement image and the particle image.
* `int` values are unbounded integers; a conversion `float → int` is truncation
  toward zero (the behaviour C++ defines for in-range values).
* `uchar` / `uint8_t` values are integers reduced modulo `256` at the point where the
  code converts to the 8-bit type.
* `for` loops are left folds over `List.range`.
-/

namespace Dogm

/-! ## Scalar conversions -/

/-- Truncation toward zero, the rounding of a C++ floating to integral conversion.  It is
stated for any ordered field with a floor function, so that it can be read on `ℚ` (where
it evaluates) and on `ℝ`. -/
def truncQ {K : Type} [LinearOrderedField K] [FloorRing K] (q : K) : Int :=
  if 0 ≤ q then ⌊q⌋ else ⌈q⌉

/-- Conversion `static_cast<int>(float)`. -/
def static_cast_int (q : ℚ) : Int := truncQ q

/-- Conversion of an `int` to `uchar` (modular, as for every unsigned type). -/
def uchar_of_int (v : Int) : Int := v % 256

/-- Conversion `static_cast<uchar>(float)`: truncation, kept in 8 bits. -/
def static_cast_uchar (q : ℚ) : Int := uchar_of_int (truncQ q)

/-- The C library `fmodf`: `x - n * y` with `n` the quotient `x / y` truncated toward zero. -/
def fmodf {K : Type} [LinearOrderedField K] [FloorRing K] (x y : K) : K :=
  x - ((truncQ (x / y) : Int) : K) * y

/-! ## Floating-point rounding -/

/-- Rounding to the nearest integer, a tie going to the even neighbour. -/
def roundHalfEven (z : ℚ) : Int :=
  if z - ⌊z⌋ < 1 / 2 then ⌊z⌋
  else if 1 / 2 < z - ⌊z⌋ then ⌊z⌋ + 1
  else if ⌊z⌋ % 2 = 0 then ⌊z⌋ else ⌊z⌋ + 1

/-- The exponent `e` of the binade `[2 ^ e, 2 ^ (e + 1))` that holds `|x|`, not below
the least normal exponent `emin` (below it the numbers are subnormal). -/
def binadeExp (emin : Int) (x : ℚ) : Int := max (Int.log 2 |x|) emin

/-- IEEE 754 rounding to nearest, ties to even, in the binary format with `prec`
significant bits and least normal exponent `emin`: `x` is rounded to a multiple of the
unit in the last place of its binade. -/
def roundBinary (prec : Nat) (emin : Int) (x : ℚ) : ℚ :=
  (roundHalfEven (x / 2 ^ (binadeExp emin x - ((prec : Int) - 1))) : ℚ)
    * 2 ^ (binadeExp emin x - ((prec : Int) - 1))

/-- Rounding to binary32, the format of `float`. -/
def fl32 (x : ℚ) : ℚ := roundBinary 24 (-126) x

/-- Rounding to binary64, the format of `double`. -/
def fl64 (x : ℚ) : ℚ := roundBinary 53 (-1022) x

/-- How results are rounded: `f32` when a value is produced or stored as `float`, `f64`
when it is produced as `double`. -/
structure Rounding where
  f32 : ℚ → ℚ
  f64 : ℚ → ℚ

/-- The arithmetic of the machine: binary32 for `float`, binary64 for `double`. -/
def ieee754 : Rounding := ⟨fl32, fl64⟩

/-! ## Data model (`occupancy_grid_map.h`) -/

/-- The record `GridCell`. -/
structure GridCell where
  start_idx : Int
  end_idx : Int
  new_born_occ_mass : ℚ
  pers_occ_mass : ℚ
  free_mass : ℚ
  occ_mass : ℚ
  mu_A : ℚ
  mu_UA : ℚ
  w_A : ℚ
  w_UA : ℚ
  mean_x_vel : ℚ
  mean_y_vel : ℚ
  var_x_vel : ℚ
  var_y_vel : ℚ
  covar_xy_vel : ℚ
  deriving DecidableEq

instance : Inhabited GridCell := ⟨⟨0, 0, 0, 0, 0, 0, 0, 0, 0, 0, 0, 0, 0, 0, 0⟩⟩

/-- The record `MeasurementCell`. -/
structure MeasurementCell where
  free_mass : ℚ
  occ_mass : ℚ
  likelihood : ℚ
  p_A : ℚ
  deriving DecidableEq

instance : Inhabited MeasurementCell := ⟨⟨0, 0, 0, 0⟩⟩

/-! ## `image_creation.cpp` -/

/-- The function `pignistic_transformation`. -/
def pignistic_transformation (free_mass occ_mass : ℚ) : ℚ :=
  occ_mass + 0.5 * (1.0 - occ_mass - free_mass)

/-- The function `pignistic_transformation` with the result of each of its four `float`
operations rounded. -/
def pignistic_transformation_fl (R : Rounding) (free_mass occ_mass : ℚ) : ℚ :=
  R.f32 (occ_mass + R.f32 (0.5 * R.f32 (R.f32 (1.0 - occ_mass) - free_mass)))

/-- The template `Point<T>` of `dbscan.h` (declaration outside the sources at hand):
the fields are those `computeCellsWithVelocity` assigns; the coordinates are `float`,
`compute_dogm_image` converts them back with `static_cast<int>`. -/
structure Point (α : Type) where
  x : ℚ
  y : ℚ
  data : α
  cluster_id : Int
  deriving DecidableEq

/-- A `glm::vec4` particle state: position `x`, `y` and velocity. -/
structure Vec4 where
  v0 : ℚ
  v1 : ℚ
  v2 : ℚ
  v3 : ℚ
  deriving DecidableEq

instance : Inhabited Vec4 := ⟨⟨0, 0, 0, 0⟩⟩

/-- The particle storage read as `particle_array.state[i][k]`. -/
structure ParticlesSoA where
  state : List Vec4

/-- The read-only state of `dogm::DOGM` that the functions of `image_creation.cpp`
access (class declared in `dogm/dogm.h`, outside the sources at hand). -/
structure DOGM where
  grid_size : Nat
  grid_cell_array : List GridCell
  meas_cell_array : List MeasurementCell
  polar_meas_cell_array : List MeasurementCell
  particle_array : ParticlesSoA
  particle_count : Nat

/-- The accessor `getGridSize()`. -/
def DOGM.getGridSize (grid_map : DOGM) : Nat := grid_map.grid_size

/-- A `2 × 1` matrix of `float` (`cv::Mat(2, 1, CV_32FC1)`). -/
structure Mat2x1 where
  e0 : ℚ
  e1 : ℚ

/-- A `1 × 2` matrix of `float`. -/
structure Mat1x2 where
  e0 : ℚ
  e1 : ℚ

/-- A `2 × 2` matrix of `float` (`cv::Mat(2, 2, CV_32FC1)`), entry `eij` at row `i`,
column `j`. -/
structure Mat2x2 where
  e00 : ℚ
  e01 : ℚ
  e10 : ℚ
  e11 : ℚ

/-- Transposition `cv::Mat::t()` of a column vector. -/
def Mat2x1.t (v : Mat2x1) : Mat1x2 := ⟨v.e0, v.e1⟩

/-- The matrix inverse `cv::Mat::inv()` (OpenCV, default method) on a `2 × 2` matrix:
with `d` the determinant, the adjugate scaled by `1 / d` when `d ≠ 0`, and the zero
matrix when the matrix is singular.  OpenCV computes the determinant, its reciprocal and
the scaled entries in `double` and stores the entries as `float`. -/
def Mat2x2.inv (R : Rounding) (m : Mat2x2) : Mat2x2 :=
  let d := R.f64 (R.f64 (m.e00 * m.e11) - R.f64 (m.e01 * m.e10))
  if d ≠ 0 then
    let d := R.f64 (1 / d)
    ⟨R.f32 (R.f64 (m.e11 * d)), R.f32 (R.f64 (-m.e01 * d)),
      R.f32 (R.f64 (-m.e10 * d)), R.f32 (R.f64 (m.e00 * d))⟩
  else ⟨0, 0, 0, 0⟩

/-- Matrix product `(1 × 2) * (2 × 2)`; each entry is accumulated in `double` and stored
as `float`. -/
def Mat1x2.mul (R : Rounding) (r : Mat1x2) (m : Mat2x2) : Mat1x2 :=
  ⟨R.f32 (R.f64 (R.f64 (r.e0 * m.e00) + R.f64 (r.e1 * m.e10))),
    R.f32 (R.f64 (R.f64 (r.e0 * m.e01) + R.f64 (r.e1 * m.e11)))⟩

/-- Matrix product `(1 × 2) * (2 × 1)`, the single entry of the `1 × 1` result,
accumulated in `double` and stored as `float`. -/
def Mat1x2.mulVec (R : Rounding) (r : Mat1x2) (v : Mat2x1) : ℚ :=
  R.f32 (R.f64 (R.f64 (r.e0 * v.e0) + R.f64 (r.e1 * v.e1)))

/-- The loop nest shared by `computeCellsWithVelocity` and the grid renderers:
`for (y = 0; y < n; y++) for (x = 0; x < n; x++) { index = y * n + x; body }`. -/
def forEachCell {σ : Type} (n : Nat) (body : σ → Nat → Nat → Nat → σ) (init : σ) : σ :=
  (List.range n).foldl
    (fun acc y => (List.range n).foldl (fun acc x => body acc y x (y * n + x)) acc) init

/-- The value `velocity_normalized_by_variance.at<float>(0, 0)` that
`computeCellsWithVelocity` computes for a cell:
`velocity_mean.t() * velocity_covar.inv() * velocity_mean`. -/
def velocity_normalized_by_variance (R : Rounding) (cell : GridCell) : ℚ :=
  let velocity_mean : Mat2x1 := ⟨cell.mean_x_vel, cell.mean_y_vel⟩
  let velocity_covar : Mat2x2 :=
    ⟨cell.var_x_vel, cell.covar_xy_vel, cell.covar_xy_vel, cell.var_y_vel⟩
  (velocity_mean.t.mul R (velocity_covar.inv R)).mulVec R velocity_mean

/-- The function `computeCellsWithVelocity`; the constant `UNCLASSIFIED` of `dbscan.h`
is a parameter. -/
def computeCellsWithVelocity (R : Rounding) (grid_map : DOGM) (min_occupancy_threshold : ℚ)
    (min_velocity_threshold : ℚ) (UNCLASSIFIED : Int) : List (Point GridCell) :=
  forEachCell grid_map.getGridSize
    (fun cells_with_velocity y x index =>
      let cell := grid_map.grid_cell_array.getD index default
      let occ := pignistic_transformation_fl R cell.free_mass cell.occ_mass
      if occ ≥ min_occupancy_threshold
          ∧ velocity_normalized_by_variance R cell ≥ min_velocity_threshold then
        cells_with_velocity ++ [⟨(x : ℚ), (y : ℚ), cell, UNCLASSIFIED⟩]
      else cells_with_velocity)
    []

/-- The grid positions `(y, x)` in the order the loop nest visits them. -/
def cellCoords (n : Nat) : List (Nat × Nat) :=
  (List.range n).flatMap (fun y => (List.range n).map (fun x => (y, x)))

/-- The array index of a returned point, recovered from its coordinates the way
`compute_dogm_image` does (`static_cast<int>(cell.y)`, `static_cast<int>(cell.x)`). -/
def pointIndex (n : Nat) (p : Point GridCell) : Int :=
  static_cast_int p.y * (n : Int) + static_cast_int p.x

/-- Conversion `static_cast<uint8_t>(float)`: truncation, kept in 8 bits. -/
def static_cast_uint8 {K : Type} [LinearOrderedField K] [FloorRing K] (q : K) : Int :=
  uchar_of_int (truncQ q)

/-- A pixel `cv::Vec3b`: three `uchar` channels. -/
structure Vec3b where
  c0 : Int
  c1 : Int
  c2 : Int
  deriving DecidableEq

instance : Inhabited Vec3b := ⟨⟨0, 0, 0⟩⟩

/-- The constructor `cv::Vec3b(v0, v1, v2)` called with `int` arguments: each argument
is converted to `uchar`. -/
def Vec3b.ofInts (v0 v1 v2 : Int) : Vec3b :=
  ⟨uchar_of_int v0, uchar_of_int v1, uchar_of_int v2⟩

/-- A `CV_8UC3` image `cv::Mat`: `rows * cols` pixels stored row by row. -/
structure Mat where
  rows : Nat
  cols : Nat
  data : List Vec3b

/-- The constructor `cv::Mat(rows, cols, CV_8UC3, fill)`. -/
def Mat.create (rows cols : Nat) (fill : Vec3b) : Mat :=
  ⟨rows, cols, List.replicate (rows * cols) fill⟩

/-- Reading the pixel at `(row, col)`. -/
def Mat.pixel (m : Mat) (row col : Nat) : Vec3b := m.data.getD (row * m.cols + col) default

/-- Writing the pixel at `(row, col)`, as `m.ptr<cv::Vec3b>(row)[col] = v` and
`m.at<cv::Vec3b>(row, col) = v` do.  A write outside the image is undefined behaviour in
the source; here it leaves the image unchanged. -/
def Mat.setPixel (m : Mat) (row col : Int) (v : Vec3b) : Mat :=
  if 0 ≤ row ∧ row < (m.rows : Int) ∧ 0 ≤ col ∧ col < (m.cols : Int) then
    { m with data := m.data.set (row.toNat * m.cols + col.toNat) v }
  else m

/-- The gray level `255 - temp` that `compute_measurement_grid_image` stores in the three
channels of a cell with the given masses. -/
def measurement_grid_gray (R : Rounding) (free_mass occ_mass : ℚ) : Int :=
  let occ := pignistic_transformation_fl R free_mass occ_mass
  let temp := static_cast_uchar (R.f32 (occ * 255.0))
  uchar_of_int (255 - temp)

/-- The function `compute_measurement_grid_image`.  The image is created without an
initial value and every pixel is then written; the initial content is taken as zero. -/
def compute_measurement_grid_image (R : Rounding) (grid_map : DOGM) : Mat :=
  forEachCell grid_map.getGridSize
    (fun grid_img y x index =>
      let cell := grid_map.meas_cell_array.getD index default
      let g := measurement_grid_gray R cell.free_mass cell.occ_mass
      grid_img.setPixel y x ⟨g, g, g⟩)
    (Mat.create grid_map.getGridSize grid_map.getGridSize default)

/-- The local `red` of `compute_raw_measurement_grid_image`. -/
def raw_red (cell : MeasurementCell) : Int := static_cast_int (cell.occ_mass * 255.0)

/-- The local `green` of `compute_raw_measurement_grid_image`. -/
def raw_green (cell : MeasurementCell) : Int := static_cast_int (cell.free_mass * 255.0)

/-- The local `blue` of `compute_raw_measurement_grid_image`. -/
def raw_blue (cell : MeasurementCell) : Int := 255 - raw_red cell - raw_green cell

/-- The function `compute_raw_measurement_grid_image`; the image starts as in
`compute_measurement_grid_image`. -/
def compute_raw_measurement_grid_image (grid_map : DOGM) : Mat :=
  forEachCell grid_map.getGridSize
    (fun grid_img y x index =>
      let cell := grid_map.meas_cell_array.getD index default
      grid_img.setPixel y x (Vec3b.ofInts (raw_blue cell) (raw_green cell) (raw_red cell)))
    (Mat.create grid_map.getGridSize grid_map.getGridSize default)

/-- The value `grayscale_value` of `compute_dogm_image` for a cell with the given
masses: `255 - static_cast<uchar>(floor(occ * 255))`, stored in a `uchar`. -/
def dogm_grayscale_value (R : Rounding) (free_mass occ_mass : ℚ) : Int :=
  let occ := pignistic_transformation_fl R free_mass occ_mass
  uchar_of_int (255 - static_cast_uchar ((⌊R.f32 (occ * 255)⌋ : Int) : ℚ))

/-- The value `hue_opencv` of `compute_dogm_image`, from the direction
`atan2(mean_y_vel, mean_x_vel) * (180 / π)` of the mean velocity in degrees, a `double`.
The sum with `360` is a `double`, it is converted to `float` for `fmodf`, whose result
is exact, and the product with `0.5F` is a `float`. -/
def hue_opencv (R : Rounding) (atan2_degrees : ℚ) : Int :=
  let angle := fmodf (R.f32 (R.f64 (atan2_degrees + 360))) 360
  static_cast_uint8 (R.f32 (angle * 0.5))

/-- The function `compute_dogm_image`.  Parameters stand for what lies outside the
sources at hand: `atan2_degrees y x` for `atan2(y, x) * (180 / π)`, `cvtColor_HSV2RGB` for
the OpenCV colour conversion of one pixel, and `addColorWheelToBottomRightCorner`. -/
def compute_dogm_image (R : Rounding) (atan2_degrees : ℚ → ℚ → ℚ)
    (cvtColor_HSV2RGB : Vec3b → Vec3b)
    (addColorWheelToBottomRightCorner : Mat → Mat) (grid_map : DOGM)
    (cells_with_velocity : List (Point GridCell)) : Mat :=
  let gray_img :=
    forEachCell grid_map.getGridSize
      (fun grid_img y x index =>
        let cell := grid_map.grid_cell_array.getD index default
        let grayscale_value := dogm_grayscale_value R cell.free_mass cell.occ_mass
        grid_img.setPixel y x ⟨grayscale_value, grayscale_value, grayscale_value⟩)
      (Mat.create grid_map.getGridSize grid_map.getGridSize default)
  let coloured_img :=
    cells_with_velocity.foldl
      (fun grid_img cell =>
        let hue := hue_opencv R (atan2_degrees cell.data.mean_y_vel cell.data.mean_x_vel)
        let rgb := cvtColor_HSV2RGB (Vec3b.ofInts hue 255 255)
        grid_img.setPixel (static_cast_int cell.y) (static_cast_int cell.x) rgb)
      gray_img
  addColorWheelToBottomRightCorner coloured_img

/-- The body of the particle loop of `compute_particles_image` for a particle at
position `(x, y)` on a grid of size `n`. -/
def particle_loop_body (n : Nat) (particles_img : Mat) (x y : ℚ) : Mat :=
  if (x ≥ 0 ∧ x < (n : ℚ)) ∧ (y ≥ 0 ∧ y < (n : ℚ)) then
    particles_img.setPixel (static_cast_int y) (static_cast_int x) (Vec3b.ofInts 0 0 255)
  else particles_img

/-- The function `compute_particles_image`. -/
def compute_particles_image (grid_map : DOGM) : Mat :=
  (List.range grid_map.particle_count).foldl
    (fun particles_img i =>
      let x := (grid_map.particle_array.state.getD i default).v0
      let y := (grid_map.particle_array.state.getD i default).v1
      particle_loop_body grid_map.getGridSize particles_img x y)
    (Mat.create grid_map.getGridSize grid_map.getGridSize (Vec3b.ofInts 0 0 0))

/-- The remainder `a mod m` of real arithmetic, `a - m * ⌊a / m⌋`, in the wording of the
specification; to be compared with `fmodf`. -/
def realMod {K : Type} [LinearOrderedField K] [FloorRing K] (a m : K) : K :=
  a - m * ((⌊a / m⌋ : Int) : K)

/-- A cell with full occupied mass, unit velocity along `x` and unit covariance. -/
def movingCell : GridCell :=
  { start_idx := 0, end_idx := 0, new_born_occ_mass := 0, pers_occ_mass := 1,
    free_mass := 0, occ_mass := 1, mu_A := 0, mu_UA := 0, w_A := 0, w_UA := 0,
    mean_x_vel := 1, mean_y_vel := 0, var_x_vel := 1, var_y_vel := 1, covar_xy_vel := 0 }

/-- A measurement cell with full occupied mass. -/
def occupiedMeasurement : MeasurementCell :=
  { free_mass := 0, occ_mass := 1, likelihood := 0, p_A := 0 }

/-- A `1 × 1` grid holding `movingCell`, `occupiedMeasurement` and one particle at
`(1/2, 1/2)`. -/
def singleCellGrid : DOGM :=
  { grid_size := 1, grid_cell_array := [movingCell], meas_cell_array := [occupiedMeasurement],
    polar_meas_cell_array := [], particle_array := ⟨[⟨1 / 2, 1 / 2, 0, 0⟩]⟩,
    particle_count := 1 }

/-- A cell with full free mass and no velocity. -/
def emptyCell : GridCell :=
  { start_idx := 0, end_idx := 0, new_born_occ_mass := 0, pers_occ_mass := 0,
    free_mass := 1, occ_mass := 0, mu_A := 0, mu_UA := 0, w_A := 0, w_UA := 0,
    mean_x_vel := 0, mean_y_vel := 0, var_x_vel := 1, var_y_vel := 1, covar_xy_vel := 0 }

/-- A `2 × 2` grid: `movingCell` at the indices `0`, `2`, `3` and `emptyCell` at `1`. -/
def twoByTwoGrid : DOGM :=
  { grid_size := 2, grid_cell_array := [movingCell, emptyCell, movingCell, movingCell],
    meas_cell_array := [], polar_meas_cell_array := [], particle_array := ⟨[]⟩,
    particle_count := 0 }

/-- A cell with free mass `1/4` and occupied mass `1/2`, moving along `y`. -/
def halfOccupiedCell : GridCell :=
  { start_idx := 0, end_idx := 0, new_born_occ_mass := 0, pers_occ_mass := 1 / 2,
    free_mass := 1 / 4, occ_mass := 1 / 2, mu_A := 0, mu_UA := 0, w_A := 0, w_UA := 0,
    mean_x_vel := 0, mean_y_vel := 1, var_x_vel := 1, var_y_vel := 1, covar_xy_vel := 0 }

/-- A measurement cell with free mass `1/4` and occupied mass `1/2`. -/
def halfOccupiedMeasurement : MeasurementCell :=
  { free_mass := 1 / 4, occ_mass := 1 / 2, likelihood := 0, p_A := 0 }

/-- A `1 × 1` grid holding `halfOccupiedCell` and `halfOccupiedMeasurement`. -/
def halfOccupiedGrid : DOGM :=
  { grid_size := 1, grid_cell_array := [halfOccupiedCell],
    meas_cell_array := [halfOccupiedMeasurement], polar_meas_cell_array := [],
    particle_array := ⟨[]⟩, particle_count := 0 }

/-- A measurement cell with no free mass and the `float` occupied mass
`197379 / 2 ^ 24` (about `3 / 255`). -/
def faintMeasurement : MeasurementCell :=
  { free_mass := 0, occ_mass := 197379 / 16777216, likelihood := 0, p_A := 0 }

/-- A `1 × 1` grid holding `faintMeasurement`. -/
def faintGrid : DOGM :=
  { grid_size := 1, grid_cell_array := [], meas_cell_array := [faintMeasurement],
    polar_meas_cell_array := [], particle_array := ⟨[]⟩, particle_count := 0 }

end Dogm

namespace Dogm

/-! ## Auxiliary lemmas -/

theorem foldl_flatMap_eq {α β σ : Type} (f : σ → β → σ) (g : α → List β) (l : List α)
    (init : σ) :
    (l.flatMap g).foldl f init = l.foldl (fun acc a => (g a).foldl f acc) init := by
  induction l generalizing init with
  | nil => rfl
  | cons a t ih => simp [List.flatMap_cons, List.foldl_append, ih]

/-- The loop nest is one left fold over the row-major list of positions. -/
theorem forEachCell_eq_foldl {σ : Type} (n : Nat) (body : σ → Nat → Nat → Nat → σ)
    (init : σ) :
    forEachCell n body init
      = (cellCoords n).foldl (fun acc p => body acc p.1 p.2 (p.1 * n + p.2)) init := by
  unfold forEachCell cellCoords
  rw [foldl_flatMap_eq]
  simp [List.foldl_map]

/-- A loop that conditionally appends is a filter followed by a map. -/
theorem foldl_append_if {α β : Type} (c : α → Prop) [DecidablePred c] (f : α → β)
    (l : List α) (init : List β) :
    l.foldl (fun acc a => if c a then acc ++ [f a] else acc) init
      = init ++ (l.filter (fun a => decide (c a))).map f := by
  induction l generalizing init with
  | nil => simp
  | cons a t ih =>
    by_cases h : c a <;> simp [List.foldl_cons, ih, h, List.filter_cons]

theorem flatMap_range_rows (n m : Nat) :
    (List.range m).flatMap (fun y => (List.range n).map (fun x => y * n + x))
      = List.range (m * n) := by
  induction m with
  | zero => simp
  | succ m ih =>
    rw [List.range_succ, List.flatMap_append, ih, Nat.succ_mul, List.range_add]
    simp

/-- The indices of the row-major positions are `0, 1, …, n * n - 1`. -/
theorem cellCoords_map_index (n : Nat) :
    (cellCoords n).map (fun p => p.1 * n + p.2) = List.range (n * n) := by
  unfold cellCoords
  rw [← flatMap_range_rows n n, List.map_flatMap]
  simp [List.map_map, Function.comp_def]

theorem mem_cellCoords {n : Nat} {p : Nat × Nat} :
    p ∈ cellCoords n ↔ p.1 < n ∧ p.2 < n := by
  unfold cellCoords
  simp only [List.mem_flatMap, List.mem_map, List.mem_range]
  constructor
  · rintro ⟨y, hy, x, hx, rfl⟩
    exact ⟨hy, hx⟩
  · rintro ⟨hy, hx⟩
    exact ⟨p.1, hy, p.2, hx, rfl⟩

theorem truncQ_natCast (k : Nat) : truncQ (k : ℚ) = (k : Int) := by
  unfold truncQ
  simp

/-- The list `computeCellsWithVelocity` returns, as a filter of the row-major positions. -/
theorem computeCellsWithVelocity_eq (R : Rounding) (grid_map : DOGM) (t1 t2 : ℚ) (U : Int) :
    computeCellsWithVelocity R grid_map t1 t2 U
      = ((cellCoords grid_map.getGridSize).filter (fun p => decide
            (pignistic_transformation_fl R
                (grid_map.grid_cell_array.getD (p.1 * grid_map.getGridSize + p.2) default).free_mass
                (grid_map.grid_cell_array.getD (p.1 * grid_map.getGridSize + p.2) default).occ_mass
                ≥ t1
              ∧ velocity_normalized_by_variance R
                (grid_map.grid_cell_array.getD (p.1 * grid_map.getGridSize + p.2) default)
                ≥ t2))).map
          (fun p => (⟨(p.2 : ℚ), (p.1 : ℚ),
            grid_map.grid_cell_array.getD (p.1 * grid_map.getGridSize + p.2) default, U⟩ :
              Point GridCell)) := by
  unfold computeCellsWithVelocity
  rw [forEachCell_eq_foldl]
  simp only []
  rw [foldl_append_if]
  simp

theorem pointIndex_mk (n y x : Nat) (c : GridCell) (U : Int) :
    pointIndex n (⟨(x : ℚ), (y : ℚ), c, U⟩ : Point GridCell) = ((y * n + x : Nat) : Int) := by
  unfold pointIndex static_cast_int
  rw [truncQ_natCast, truncQ_natCast]
  push_cast
  ring

theorem cellCoords_pairwise (n : Nat) :
    List.Pairwise (fun p q : Nat × Nat => p.1 * n + p.2 < q.1 * n + q.2) (cellCoords n) := by
  have h := List.pairwise_lt_range (n * n)
  rw [← cellCoords_map_index, List.pairwise_map] at h
  exact h

theorem cellCoords_length (n : Nat) : (cellCoords n).length = n * n := by
  have h := congrArg List.length (cellCoords_map_index n)
  simpa using h

theorem index_lt_of_lt {n x y : Nat} (hx : x < n) (hy : y < n) : y * n + x < n * n :=
  calc y * n + x < y * n + n := by omega
    _ = (y + 1) * n := by ring
    _ ≤ n * n := Nat.mul_le_mul_right n hy

theorem truncQ_of_nonneg {K : Type} [LinearOrderedField K] [FloorRing K] {q : K}
    (h : 0 ≤ q) : truncQ q = ⌊q⌋ := by
  unfold truncQ
  rw [if_pos h]

theorem floor_255 : ⌊(255 : ℚ)⌋ = 255 := by
  simp

theorem truncQ_intCast (z : Int) : truncQ (z : ℚ) = z := by
  unfold truncQ
  split <;> simp

theorem uchar_of_int_eq {v : Int} (h0 : 0 ≤ v) (h1 : v ≤ 255) : uchar_of_int v = v := by
  unfold uchar_of_int
  omega

/-- Truncation of a value of `[0, 255]` stays in `[0, 255]`. -/
theorem truncQ_range {q : ℚ} (h0 : 0 ≤ q) (h1 : q ≤ 255) : 0 ≤ truncQ q ∧ truncQ q ≤ 255 := by
  rw [truncQ_of_nonneg h0]
  constructor
  · exact Int.floor_nonneg.mpr h0
  · have h : ⌊q⌋ ≤ ⌊(255 : ℚ)⌋ := Int.floor_mono h1
    have h255 : ⌊(255 : ℚ)⌋ = 255 := floor_255
    omega

/-- The three channels computed for a measurement cell. -/
theorem raw_channels (cell : MeasurementCell) :
    raw_red cell = truncQ (255 * cell.occ_mass)
      ∧ raw_green cell = truncQ (255 * cell.free_mass)
      ∧ raw_blue cell = 255 - raw_red cell - raw_green cell
      ∧ raw_red cell + raw_green cell + raw_blue cell = 255 := by
  unfold raw_blue raw_red raw_green static_cast_int
  refine ⟨?_, ?_, rfl, by ring⟩
  · congr 1; norm_num; ring
  · congr 1; norm_num; ring

/-- Under the mass invariant no channel leaves `[0, 255]`. -/
theorem raw_channels_range (cell : MeasurementCell)
    (hf : 0 ≤ cell.free_mass) (ho : 0 ≤ cell.occ_mass)
    (hsum : cell.free_mass + cell.occ_mass ≤ 1) :
    (0 ≤ raw_red cell ∧ raw_red cell ≤ 255)
      ∧ (0 ≤ raw_green cell ∧ raw_green cell ≤ 255)
      ∧ (0 ≤ raw_blue cell ∧ raw_blue cell ≤ 255) := by
  obtain ⟨hr, hg, hb, _⟩ := raw_channels cell
  have hro : 0 ≤ 255 * cell.occ_mass := by positivity
  have hgo : 0 ≤ 255 * cell.free_mass := by positivity
  have hr2 := truncQ_range hro (by linarith)
  have hg2 := truncQ_range hgo (by linarith)
  rw [← hr] at hr2
  rw [← hg] at hg2
  refine ⟨hr2, hg2, ?_⟩
  have hadd : raw_red cell + raw_green cell ≤ 255 := by
    rw [hr, hg, truncQ_of_nonneg hro, truncQ_of_nonneg hgo]
    have h1 := Int.le_floor_add (255 * cell.occ_mass) (255 * cell.free_mass)
    have h2 : ⌊255 * cell.occ_mass + 255 * cell.free_mass⌋ ≤ ⌊(255 : ℚ)⌋ :=
      Int.floor_mono (by linarith)
    have h255 : ⌊(255 : ℚ)⌋ = 255 := floor_255
    omega
  rw [hb]
  omega

/-! ### Pixel writes -/

theorem setPixel_valid (n : Nat) (d : List Vec3b) (row col : Int) (v : Vec3b)
    (hr : 0 ≤ row ∧ row < (n : Int)) (hc : 0 ≤ col ∧ col < (n : Int)) :
    (⟨n, n, d⟩ : Mat).setPixel row col v = ⟨n, n, d.set (row.toNat * n + col.toNat) v⟩ := by
  unfold Mat.setPixel
  have h : 0 ≤ row ∧ row < (n : Int) ∧ 0 ≤ col ∧ col < (n : Int) := ⟨hr.1, hr.2, hc.1, hc.2⟩
  simp only [h, and_self, if_true]

theorem foldl_setPixel {α : Type} (n : Nat) (r c : α → Int) (v : α → Vec3b) (l : List α)
    (hl : ∀ a ∈ l, (0 ≤ r a ∧ r a < (n : Int)) ∧ (0 ≤ c a ∧ c a < (n : Int)))
    (d : List Vec3b) :
    l.foldl (fun img a => img.setPixel (r a) (c a) (v a)) (⟨n, n, d⟩ : Mat)
      = ⟨n, n, l.foldl (fun d a => d.set ((r a).toNat * n + (c a).toNat) (v a)) d⟩ := by
  induction l generalizing d with
  | nil => rfl
  | cons a t ih =>
    have ha := hl a (List.mem_cons_self a t)
    rw [List.foldl_cons, List.foldl_cons, setPixel_valid n d (r a) (c a) (v a) ha.1 ha.2]
    exact ih (fun b hb => hl b (List.mem_cons_of_mem a hb)) _

theorem foldl_set_length {α β : Type} (idx : α → Nat) (v : α → β) (l : List α) (d : List β) :
    (l.foldl (fun d a => d.set (idx a) (v a)) d).length = d.length := by
  induction l generalizing d with
  | nil => rfl
  | cons a t ih => rw [List.foldl_cons, ih, List.length_set]

/-- A position no write addresses keeps its value. -/
theorem foldl_set_getD_miss {α β : Type} (idx : α → Nat) (v : α → β) (l : List α)
    (d : List β) (k : Nat) (dflt : β) (hmiss : ∀ a ∈ l, idx a ≠ k) :
    (l.foldl (fun d a => d.set (idx a) (v a)) d).getD k dflt = d.getD k dflt := by
  induction l generalizing d with
  | nil => rfl
  | cons a t ih =>
    rw [List.foldl_cons, ih _ (fun b hb => hmiss b (List.mem_cons_of_mem a hb))]
    have hne := hmiss a (List.mem_cons_self a t)
    simp [List.getD_eq_getElem?_getD, List.getElem?_set, hne]

/-- A position some write addresses holds the written value, when every write to an
index `i` writes `g i`. -/
theorem foldl_set_getD_hit {α β : Type} (idx : α → Nat) (v : α → β) (g : Nat → β)
    (l : List α) (hg : ∀ a ∈ l, v a = g (idx a)) (d : List β) (k : Nat) (dflt : β)
    (hhit : ∃ a ∈ l, idx a = k) (hk : k < d.length) :
    (l.foldl (fun d a => d.set (idx a) (v a)) d).getD k dflt = g k := by
  induction l generalizing d with
  | nil => obtain ⟨a, ha, _⟩ := hhit; cases ha
  | cons a t ih =>
    rw [List.foldl_cons]
    by_cases ht : ∃ b ∈ t, idx b = k
    · exact ih (fun b hb => hg b (List.mem_cons_of_mem a hb)) _ ht
        (by rw [List.length_set]; exact hk)
    · have hmiss : ∀ b ∈ t, idx b ≠ k := fun b hb hbk => ht ⟨b, hb, hbk⟩
      rw [foldl_set_getD_miss idx v t _ k dflt hmiss]
      obtain ⟨b, hb, hbk⟩ := hhit
      rcases List.mem_cons.mp hb with rfl | hb2
      · have hv := hg b (List.mem_cons_self b t)
        simp [List.getD_eq_getElem?_getD, List.getElem?_set, hbk, hk, hv]
      · exact absurd hbk (hmiss b hb2)

/-- After the loop nest has written `g index` to every pixel, pixel `(y, x)` holds
`g (y * n + x)`. -/
theorem forEachCell_setPixel_pixel (n : Nat) (g : Nat → Vec3b) (fill : Vec3b) (x y : Nat)
    (hx : x < n) (hy : y < n) :
    (forEachCell n (fun (img : Mat) y x index => img.setPixel y x (g index))
        (Mat.create n n fill)).pixel y x = g (y * n + x) := by
  rw [forEachCell_eq_foldl]
  unfold Mat.create
  rw [foldl_setPixel n (fun p : Nat × Nat => (p.1 : Int)) (fun p => (p.2 : Int))
    (fun p => g (p.1 * n + p.2)) (cellCoords n)
    (fun p hp => by have := mem_cellCoords.mp hp; beta_reduce; omega)]
  unfold Mat.pixel
  simp only [Int.toNat_ofNat]
  exact foldl_set_getD_hit (fun p : Nat × Nat => p.1 * n + p.2) (fun p => g (p.1 * n + p.2)) g
    (cellCoords n) (fun _ _ => rfl) _ (y * n + x) default
    ⟨(y, x), mem_cellCoords.mpr ⟨hy, hx⟩, rfl⟩
    (by rw [List.length_replicate]; exact index_lt_of_lt hx hy)

theorem index_inj {n x y x2 y2 : Nat} (hx : x < n) (hx2 : x2 < n)
    (h : y * n + x = y2 * n + x2) : x = x2 ∧ y = y2 := by
  have hn : 0 < n := by omega
  have h1 : (y * n + x) / n = y := by
    rw [Nat.mul_comm, Nat.mul_add_div hn, Nat.div_eq_of_lt hx, Nat.add_zero]
  have h2 : (y2 * n + x2) / n = y2 := by
    rw [Nat.mul_comm, Nat.mul_add_div hn, Nat.div_eq_of_lt hx2, Nat.add_zero]
  have hy : y = y2 := by rw [← h1, ← h2, h]
  subst hy
  exact ⟨by omega, rfl⟩

/-- A loop that conditionally updates its state is the loop over the filtered list. -/
theorem foldl_if_eq_filter {α σ : Type} (c : α → Prop) [DecidablePred c] (f : σ → α → σ)
    (l : List α) (init : σ) :
    l.foldl (fun acc a => if c a then f acc a else acc) init
      = (l.filter (fun a => decide (c a))).foldl f init := by
  induction l generalizing init with
  | nil => rfl
  | cons a t ih =>
    by_cases h : c a <;> simp [List.foldl_cons, ih, h, List.filter_cons]

/-- The truncation of a coordinate inside the grid is a valid pixel coordinate. -/
theorem static_cast_int_in_grid {n : Nat} {q : ℚ} (h0 : 0 ≤ q) (h1 : q < (n : ℚ)) :
    0 ≤ static_cast_int q ∧ static_cast_int q < (n : Int) := by
  unfold static_cast_int
  rw [truncQ_of_nonneg h0]
  refine ⟨Int.floor_nonneg.mpr h0, ?_⟩
  rw [Int.floor_lt]
  exact_mod_cast h1

/-! ### Rounding to an integer -/

theorem roundHalfEven_floor_le (z : ℚ) : ⌊z⌋ ≤ roundHalfEven z := by
  unfold roundHalfEven
  split_ifs <;> omega

theorem roundHalfEven_le_floor_succ (z : ℚ) : roundHalfEven z ≤ ⌊z⌋ + 1 := by
  unfold roundHalfEven
  split_ifs <;> omega

theorem roundHalfEven_intCast (k : Int) : roundHalfEven (k : ℚ) = k := by
  unfold roundHalfEven
  simp

/-- The rounded integer is within one half of the argument. -/
theorem roundHalfEven_sub_le (z : ℚ) :
    z - 1 / 2 ≤ (roundHalfEven z : ℚ) ∧ (roundHalfEven z : ℚ) ≤ z + 1 / 2 := by
  have h1 : ((⌊z⌋ : Int) : ℚ) ≤ z := Int.floor_le z
  have h2 : z < ((⌊z⌋ : Int) : ℚ) + 1 := Int.lt_floor_add_one z
  unfold roundHalfEven
  split_ifs with ha hb hc
  · constructor <;> linarith
  · push_cast; constructor <;> linarith
  · constructor <;> linarith
  · push_cast; constructor <;> linarith

theorem roundHalfEven_mono {z w : ℚ} (h : z ≤ w) : roundHalfEven z ≤ roundHalfEven w := by
  have hfl : ⌊z⌋ ≤ ⌊w⌋ := Int.floor_mono h
  rcases lt_or_eq_of_le hfl with hlt | heq
  · have := roundHalfEven_le_floor_succ z
    have := roundHalfEven_floor_le w
    omega
  · unfold roundHalfEven
    rw [← heq]
    have hzw : z - ⌊z⌋ ≤ w - ⌊z⌋ := by linarith
    split_ifs <;> first | omega | (exfalso; linarith)

theorem roundHalfEven_le_of_le {z : ℚ} {k : Int} (h : z ≤ k) : roundHalfEven z ≤ k := by
  have := roundHalfEven_mono h
  rwa [roundHalfEven_intCast] at this

theorem le_roundHalfEven_of_le {z : ℚ} {k : Int} (h : (k : ℚ) ≤ z) : k ≤ roundHalfEven z := by
  have := roundHalfEven_mono h
  rwa [roundHalfEven_intCast] at this

/-! ### Rounding to a binary format -/

theorem ulp_pos (prec : Nat) (emin : Int) (x : ℚ) :
    (0 : ℚ) < 2 ^ (binadeExp emin x - ((prec : Int) - 1)) :=
  zpow_pos (by norm_num) _

theorem emin_le_binadeExp (emin : Int) (x : ℚ) : emin ≤ binadeExp emin x :=
  le_max_right _ _

/-- The binade of a number between two consecutive powers of two. -/
theorem binadeExp_eq {emin E : Int} {x : ℚ} (h1 : (2 : ℚ) ^ E ≤ |x|)
    (h2 : |x| < (2 : ℚ) ^ (E + 1)) (hE : emin ≤ E) : binadeExp emin x = E := by
  have hpos : 0 < |x| := lt_of_lt_of_le (zpow_pos (by norm_num) E) h1
  have htwo : (1 : ℕ) < 2 := by norm_num
  have hlog : Int.log 2 |x| = E := by
    apply le_antisymm
    · have := (Int.lt_zpow_iff_log_lt htwo hpos).mp (by exact_mod_cast h2)
      omega
    · exact (Int.zpow_le_iff_le_log htwo hpos).mp (by exact_mod_cast h1)
  unfold binadeExp
  rw [hlog]
  exact max_eq_left hE

theorem binadeExp_le {emin N : Int} {x : ℚ} (hx : x ≠ 0)
    (h2 : |x| < (2 : ℚ) ^ (N + 1)) (hN : emin ≤ N) : binadeExp emin x ≤ N := by
  have hpos : 0 < |x| := abs_pos.mpr hx
  have htwo : (1 : ℕ) < 2 := by norm_num
  have := (Int.lt_zpow_iff_log_lt htwo hpos).mp (by exact_mod_cast h2)
  unfold binadeExp
  exact max_le (by omega) hN

theorem binadeExp_mono {emin : Int} {x y : ℚ} (hx : 0 < x) (h : x ≤ y) :
    binadeExp emin x ≤ binadeExp emin y := by
  unfold binadeExp
  rw [abs_of_pos hx, abs_of_pos (lt_of_lt_of_le hx h)]
  exact max_le_max (Int.log_mono_right hx h) le_rfl

theorem roundBinary_zero (prec : Nat) (emin : Int) : roundBinary prec emin 0 = 0 := by
  unfold roundBinary
  simp [roundHalfEven]

theorem roundBinary_nonneg (prec : Nat) (emin : Int) {x : ℚ} (hx : 0 ≤ x) :
    0 ≤ roundBinary prec emin x := by
  unfold roundBinary
  have hu := ulp_pos prec emin x
  have h0 : ((0 : Int) : ℚ) ≤ x / 2 ^ (binadeExp emin x - ((prec : Int) - 1)) := by
    simpa using div_nonneg hx hu.le
  have := le_roundHalfEven_of_le h0
  exact mul_nonneg (by exact_mod_cast this) hu.le

/-- A multiple of the unit in the last place of its own binade is left unchanged. -/
theorem roundBinary_eq_self (prec : Nat) (emin : Int) (x : ℚ) (k : Int)
    (hx : x = (k : ℚ) * 2 ^ (binadeExp emin x - ((prec : Int) - 1))) :
    roundBinary prec emin x = x := by
  have hu := ulp_pos prec emin x
  unfold roundBinary
  have hq : x / 2 ^ (binadeExp emin x - ((prec : Int) - 1)) = (k : ℚ) := by
    rw [div_eq_iff hu.ne']
    exact hx
  rw [hq, roundHalfEven_intCast]
  exact hx.symm

/-- The rounding error is at most half a unit in the last place. -/
theorem roundBinary_sub_le (prec : Nat) (emin : Int) (x : ℚ) :
    x - 2 ^ (binadeExp emin x - ((prec : Int) - 1)) / 2 ≤ roundBinary prec emin x
      ∧ roundBinary prec emin x ≤ x + 2 ^ (binadeExp emin x - ((prec : Int) - 1)) / 2 := by
  have hu := ulp_pos prec emin x
  obtain ⟨h1, h2⟩ := roundHalfEven_sub_le (x / 2 ^ (binadeExp emin x - ((prec : Int) - 1)))
  unfold roundBinary
  have hx : x = x / 2 ^ (binadeExp emin x - ((prec : Int) - 1))
      * 2 ^ (binadeExp emin x - ((prec : Int) - 1)) := by
    field_simp
  constructor
  · have := mul_le_mul_of_nonneg_right h1 hu.le
    nlinarith
  · have := mul_le_mul_of_nonneg_right h2 hu.le
    nlinarith

theorem two_zpow_prec (prec : Nat) (e : Int) :
    (2 : ℚ) ^ (e + 1) = ((2 ^ prec : Int) : ℚ) * 2 ^ (e - ((prec : Int) - 1)) := by
  push_cast
  rw [← zpow_natCast, ← zpow_add₀ (by norm_num : (2 : ℚ) ≠ 0)]
  congr 1
  ring

theorem two_zpow_prec_pred (prec : Nat) (hp : 1 ≤ prec) (e : Int) :
    (2 : ℚ) ^ e = ((2 ^ (prec - 1) : Int) : ℚ) * 2 ^ (e - ((prec : Int) - 1)) := by
  push_cast
  rw [← zpow_natCast, ← zpow_add₀ (by norm_num : (2 : ℚ) ≠ 0)]
  congr 1
  have : ((prec - 1 : Nat) : Int) = (prec : Int) - 1 := by omega
  rw [this]
  ring

/-- Rounding does not cross the power of two above the binade. -/
theorem roundBinary_le_pow (prec : Nat) (emin : Int) (x : ℚ) :
    roundBinary prec emin x ≤ 2 ^ (binadeExp emin x + 1) := by
  have hu := ulp_pos prec emin x
  have h2 : (1 : ℕ) < 2 := by norm_num
  have hlt : |x| < (2 : ℚ) ^ (Int.log 2 |x| + 1) := by
    exact_mod_cast Int.lt_zpow_succ_log_self h2 |x|
  have hle : (2 : ℚ) ^ (Int.log 2 |x| + 1) ≤ 2 ^ (binadeExp emin x + 1) :=
    zpow_le_zpow_right₀ (by norm_num) (by unfold binadeExp; have := le_max_left (Int.log 2 |x|) emin; omega)
  have hx : x ≤ (2 : ℚ) ^ (binadeExp emin x + 1) := le_trans (le_abs_self x) (le_trans hlt.le hle)
  rw [two_zpow_prec prec] at hx ⊢
  have hq : x / 2 ^ (binadeExp emin x - ((prec : Int) - 1)) ≤ ((2 ^ prec : Int) : ℚ) := by
    rw [div_le_iff₀ hu]
    exact hx
  have := roundHalfEven_le_of_le hq
  unfold roundBinary
  exact mul_le_mul_of_nonneg_right (by exact_mod_cast this) hu.le

/-- Rounding does not cross the power of two below the binade. -/
theorem pow_le_roundBinary (prec : Nat) (hp : 1 ≤ prec) (emin : Int) (x : ℚ)
    (hx : (2 : ℚ) ^ binadeExp emin x ≤ x) :
    2 ^ binadeExp emin x ≤ roundBinary prec emin x := by
  have hu := ulp_pos prec emin x
  rw [two_zpow_prec_pred prec hp] at hx
  have hq : ((2 ^ (prec - 1) : Int) : ℚ) ≤ x / 2 ^ (binadeExp emin x - ((prec : Int) - 1)) := by
    rw [le_div_iff₀ hu]
    exact hx
  have := le_roundHalfEven_of_le hq
  unfold roundBinary
  calc (2 : ℚ) ^ binadeExp emin x
      = ((2 ^ (prec - 1) : Int) : ℚ) * 2 ^ (binadeExp emin x - ((prec : Int) - 1)) :=
        two_zpow_prec_pred prec hp _
    _ ≤ _ := mul_le_mul_of_nonneg_right (by exact_mod_cast this) hu.le

/-- Rounding is monotone on the non-negative numbers. -/
theorem roundBinary_mono (prec : Nat) (hp : 1 ≤ prec) (emin : Int) {x y : ℚ}
    (hx : 0 ≤ x) (h : x ≤ y) : roundBinary prec emin x ≤ roundBinary prec emin y := by
  rcases eq_or_lt_of_le hx with h0 | hpos
  · rw [← h0, roundBinary_zero]
    exact roundBinary_nonneg prec emin (le_trans hx h)
  have hypos : 0 < y := lt_of_lt_of_le hpos h
  have he := @binadeExp_mono emin x y hpos h
  rcases eq_or_lt_of_le he with heq | hlt
  · unfold roundBinary
    rw [heq]
    have hu := ulp_pos prec emin y
    have hq : x / 2 ^ (binadeExp emin y - ((prec : Int) - 1))
        ≤ y / 2 ^ (binadeExp emin y - ((prec : Int) - 1)) :=
      div_le_div_of_nonneg_right h hu.le
    have := roundHalfEven_mono hq
    exact mul_le_mul_of_nonneg_right (by exact_mod_cast this) hu.le
  · have h2 : (1 : ℕ) < 2 := by norm_num
    have hlog : binadeExp emin y = Int.log 2 |y| := by
      unfold binadeExp
      apply max_eq_left
      have := emin_le_binadeExp emin x
      by_contra hcon
      have hy : binadeExp emin y = emin := by
        unfold binadeExp
        exact max_eq_right (by omega)
      omega
    have hyle : (2 : ℚ) ^ binadeExp emin y ≤ y := by
      rw [hlog]
      have := Int.zpow_log_le_self h2 (abs_pos.mpr hypos.ne')
      rw [abs_of_pos hypos] at this ⊢
      exact_mod_cast this
    calc roundBinary prec emin x ≤ 2 ^ (binadeExp emin x + 1) := roundBinary_le_pow prec emin x
      _ ≤ 2 ^ binadeExp emin y := zpow_le_zpow_right₀ (by norm_num) (by omega)
      _ ≤ roundBinary prec emin y := pow_le_roundBinary prec hp emin y hyle


/-- The rounding error on `|x| < 2 ^ (N + 1)` is at most half a unit in the last place
of the binade of exponent `N`. -/
theorem roundBinary_sub_le_of_lt (prec : Nat) (emin N : Int) (x : ℚ) (hN : emin ≤ N)
    (hx : |x| < (2 : ℚ) ^ (N + 1)) :
    x - 2 ^ (N - ((prec : Int) - 1)) / 2 ≤ roundBinary prec emin x
      ∧ roundBinary prec emin x ≤ x + 2 ^ (N - ((prec : Int) - 1)) / 2 := by
  have hpos : (0 : ℚ) < 2 ^ (N - ((prec : Int) - 1)) := zpow_pos (by norm_num) _
  rcases eq_or_ne x 0 with h0 | hne
  · rw [h0, roundBinary_zero]
    constructor <;> linarith
  · have hle : (2 : ℚ) ^ (binadeExp emin x - ((prec : Int) - 1))
        ≤ 2 ^ (N - ((prec : Int) - 1)) :=
      zpow_le_zpow_right₀ (by norm_num) (by have := binadeExp_le hne hx hN; omega)
    obtain ⟨h1, h2⟩ := roundBinary_sub_le prec emin x
    constructor <;> linarith

/-- Evaluation of a rounding from the binade of the argument and the rounded quotient. -/
theorem roundBinary_eval (prec : Nat) (emin : Int) (x : ℚ) (E k : Int) (hE : emin ≤ E)
    (h1 : (2 : ℚ) ^ E ≤ x) (h2 : x < (2 : ℚ) ^ (E + 1))
    (hk : roundHalfEven (x / 2 ^ (E - ((prec : Int) - 1))) = k) :
    roundBinary prec emin x = (k : ℚ) * 2 ^ (E - ((prec : Int) - 1)) := by
  have hx : 0 < x := lt_of_lt_of_le (zpow_pos (by norm_num) E) h1
  have hb : binadeExp emin x = E :=
    binadeExp_eq (by rwa [abs_of_pos hx]) (by rwa [abs_of_pos hx]) hE
  unfold roundBinary
  rw [hb, hk]

/-- A positive multiple of the unit in the last place of its binade is a value of the
format. -/
theorem roundBinary_eq_of_repr (prec : Nat) (emin : Int) (x : ℚ) (E k : Int) (hE : emin ≤ E)
    (h1 : (2 : ℚ) ^ E ≤ x) (h2 : x < (2 : ℚ) ^ (E + 1))
    (hk : x = (k : ℚ) * 2 ^ (E - ((prec : Int) - 1))) :
    roundBinary prec emin x = x := by
  have hx : 0 < x := lt_of_lt_of_le (zpow_pos (by norm_num) E) h1
  have hb : binadeExp emin x = E :=
    binadeExp_eq (by rwa [abs_of_pos hx]) (by rwa [abs_of_pos hx]) hE
  exact roundBinary_eq_self prec emin x k (by rw [hb]; exact hk)

/-- The rounded value of a number of the binade of exponent `E` is a multiple of the unit
in the last place of that binade. -/
theorem roundBinary_grid (prec : Nat) (emin : Int) (x : ℚ) (E : Int) (hE : emin ≤ E)
    (h1 : (2 : ℚ) ^ E ≤ x) (h2 : x < (2 : ℚ) ^ (E + 1)) :
    ∃ k : Int, roundBinary prec emin x = (k : ℚ) * 2 ^ (E - ((prec : Int) - 1)) :=
  ⟨_, roundBinary_eval prec emin x E _ hE h1 h2 rfl⟩

theorem roundHalfEven_eq_of_lt {z : ℚ} {f : Int} (h1 : (f : ℚ) ≤ z) (h2 : z < f + 1 / 2) :
    roundHalfEven z = f := by
  have hf : ⌊z⌋ = f := by
    rw [Int.floor_eq_iff]
    constructor <;> linarith
  unfold roundHalfEven
  rw [hf, if_pos (by linarith)]

theorem roundHalfEven_eq_of_gt {z : ℚ} {f : Int} (h1 : (f : ℚ) + 1 / 2 < z) (h2 : z < f + 1) :
    roundHalfEven z = f + 1 := by
  have hf : ⌊z⌋ = f := by
    rw [Int.floor_eq_iff]
    constructor <;> linarith
  unfold roundHalfEven
  rw [hf, if_neg (by linarith), if_pos (by linarith)]

theorem roundHalfEven_eq_of_tie_odd {z : ℚ} {f : Int} (h : z = (f : ℚ) + 1 / 2)
    (ho : f % 2 = 1) : roundHalfEven z = f + 1 := by
  have hf : ⌊z⌋ = f := by
    rw [Int.floor_eq_iff]
    constructor <;> linarith
  unfold roundHalfEven
  rw [hf, if_neg (by linarith), if_neg (by linarith), if_neg (by omega)]

theorem roundHalfEven_eq_of_tie_even {z : ℚ} {f : Int} (h : z = (f : ℚ) + 1 / 2)
    (he : f % 2 = 0) : roundHalfEven z = f := by
  have hf : ⌊z⌋ = f := by
    rw [Int.floor_eq_iff]
    constructor <;> linarith
  unfold roundHalfEven
  rw [hf, if_neg (by linarith), if_neg (by linarith), if_pos he]

/-! ### binary32 and binary64 -/

theorem fl32_zero : fl32 0 = 0 := roundBinary_zero 24 (-126)

theorem fl64_zero : fl64 0 = 0 := roundBinary_zero 53 (-1022)

theorem fl32_nonneg {x : ℚ} (hx : 0 ≤ x) : 0 ≤ fl32 x := roundBinary_nonneg 24 (-126) hx

theorem fl64_nonneg {x : ℚ} (hx : 0 ≤ x) : 0 ≤ fl64 x := roundBinary_nonneg 53 (-1022) hx

theorem fl32_mono {x y : ℚ} (hx : 0 ≤ x) (h : x ≤ y) : fl32 x ≤ fl32 y :=
  roundBinary_mono 24 (by norm_num) (-126) hx h

theorem fl64_mono {x y : ℚ} (hx : 0 ≤ x) (h : x ≤ y) : fl64 x ≤ fl64 y :=
  roundBinary_mono 53 (by norm_num) (-1022) hx h

theorem fl32_one : fl32 1 = 1 :=
  roundBinary_eq_of_repr 24 (-126) 1 0 8388608 (by norm_num) (by norm_num) (by norm_num)
    (by norm_num)

theorem fl64_one : fl64 1 = 1 :=
  roundBinary_eq_of_repr 53 (-1022) 1 0 4503599627370496 (by norm_num) (by norm_num)
    (by norm_num) (by norm_num)

theorem fl32_255 : fl32 255 = 255 :=
  roundBinary_eq_of_repr 24 (-126) 255 7 16711680 (by norm_num) (by norm_num) (by norm_num)
    (by norm_num)

theorem fl32_90 : fl32 90 = 90 :=
  roundBinary_eq_of_repr 24 (-126) 90 6 11796480 (by norm_num) (by norm_num) (by norm_num)
    (by norm_num)

theorem fl32_128 : fl32 128 = 128 :=
  roundBinary_eq_of_repr 24 (-126) 128 7 8388608 (by norm_num) (by norm_num) (by norm_num)
    (by norm_num)

theorem fl32_180 : fl32 180 = 180 :=
  roundBinary_eq_of_repr 24 (-126) 180 7 11796480 (by norm_num) (by norm_num) (by norm_num)
    (by norm_num)

theorem fl32_256 : fl32 256 = 256 :=
  roundBinary_eq_of_repr 24 (-126) 256 8 8388608 (by norm_num) (by norm_num) (by norm_num)
    (by norm_num)

theorem fl32_512 : fl32 512 = 512 :=
  roundBinary_eq_of_repr 24 (-126) 512 9 8388608 (by norm_num) (by norm_num) (by norm_num)
    (by norm_num)

theorem fl32_540 : fl32 540 = 540 :=
  roundBinary_eq_of_repr 24 (-126) 540 9 8847360 (by norm_num) (by norm_num) (by norm_num)
    (by norm_num)

theorem fl64_180 : fl64 180 = 180 :=
  roundBinary_eq_of_repr 53 (-1022) 180 7 6333186975989760 (by norm_num) (by norm_num)
    (by norm_num) (by norm_num)

theorem fl64_540 : fl64 540 = 540 :=
  roundBinary_eq_of_repr 53 (-1022) 540 9 4749890231992320 (by norm_num) (by norm_num)
    (by norm_num) (by norm_num)

/-- The largest `float` below `180`. -/
theorem fl32_pred_180 : fl32 (180 - 1 / 65536) = 180 - 1 / 65536 :=
  roundBinary_eq_of_repr 24 (-126) (180 - 1 / 65536) 7 11796479 (by norm_num) (by norm_num)
    (by norm_num) (by norm_num)

end Dogm

namespace Dogm

/-- C1. The pignistic transformation is the occupied mass plus half of the unassigned
mass, `occ_mass + 0.5 * (1 - occ_mass - free_mass)`, for every pair of masses. -/
theorem pignistic_transformation_eq (free_mass occ_mass : ℚ) :
    pignistic_transformation free_mass occ_mass
        = occ_mass + 0.5 * (1 - occ_mass - free_mass)
      ∧ pignistic_transformation free_mass occ_mass
        = occ_mass + (1 - occ_mass - free_mass) / 2 := by
  unfold pignistic_transformation
  constructor
  · norm_num
  · norm_num
    ring

end Dogm

namespace Dogm

end Dogm

namespace Dogm

end Dogm

namespace Dogm

/-- C5. In the image of `compute_raw_measurement_grid_image` the pixel of a measurement
cell is built from `red = trunc(255 * occ_mass)`, `green = trunc(255 * free_mass)` and
`blue = 255 - red - green`, so the three sum to `255`; for a cell with `free_mass ≥ 0`,
`occ_mass ≥ 0`, `free_mass + occ_mass ≤ 1` every channel lies in `[0, 255]` and is stored
without wrap-around, and a cell with both masses `0` is stored as blue `255`, green `0`,
red `0`. -/
theorem compute_raw_measurement_grid_image_rgb (grid_map : DOGM) (x y : Nat)
    (cell : MeasurementCell)
    (hx : x < grid_map.getGridSize) (hy : y < grid_map.getGridSize)
    (hcell : grid_map.meas_cell_array[y * grid_map.getGridSize + x]? = some cell) :
    (compute_raw_measurement_grid_image grid_map).pixel y x
        = Vec3b.ofInts (raw_blue cell) (raw_green cell) (raw_red cell)
      ∧ raw_red cell = truncQ (255 * cell.occ_mass)
      ∧ raw_green cell = truncQ (255 * cell.free_mass)
      ∧ raw_blue cell = 255 - raw_red cell - raw_green cell
      ∧ raw_red cell + raw_green cell + raw_blue cell = 255
      ∧ (0 ≤ cell.free_mass → 0 ≤ cell.occ_mass → cell.free_mass + cell.occ_mass ≤ 1 →
          (0 ≤ raw_red cell ∧ raw_red cell ≤ 255)
            ∧ (0 ≤ raw_green cell ∧ raw_green cell ≤ 255)
            ∧ (0 ≤ raw_blue cell ∧ raw_blue cell ≤ 255)
            ∧ (compute_raw_measurement_grid_image grid_map).pixel y x
              = ⟨raw_blue cell, raw_green cell, raw_red cell⟩)
      ∧ (cell.free_mass = 0 → cell.occ_mass = 0 →
          (compute_raw_measurement_grid_image grid_map).pixel y x = ⟨255, 0, 0⟩) := by
  have hget : grid_map.meas_cell_array.getD (y * grid_map.getGridSize + x) default = cell := by
    simp [List.getD_eq_getElem?_getD, hcell]
  have hpix : (compute_raw_measurement_grid_image grid_map).pixel y x
      = Vec3b.ofInts (raw_blue cell) (raw_green cell) (raw_red cell) := by
    have h := forEachCell_setPixel_pixel grid_map.getGridSize
      (fun index => Vec3b.ofInts
        (raw_blue (grid_map.meas_cell_array.getD index default))
        (raw_green (grid_map.meas_cell_array.getD index default))
        (raw_red (grid_map.meas_cell_array.getD index default))) default x y hx hy
    beta_reduce at h
    rw [hget] at h
    exact h
  obtain ⟨hr, hg, hb, hs⟩ := raw_channels cell
  have hinv : 0 ≤ cell.free_mass → 0 ≤ cell.occ_mass → cell.free_mass + cell.occ_mass ≤ 1 →
      (0 ≤ raw_red cell ∧ raw_red cell ≤ 255)
        ∧ (0 ≤ raw_green cell ∧ raw_green cell ≤ 255)
        ∧ (0 ≤ raw_blue cell ∧ raw_blue cell ≤ 255)
        ∧ (compute_raw_measurement_grid_image grid_map).pixel y x
          = ⟨raw_blue cell, raw_green cell, raw_red cell⟩ := by
    intro hf ho hsum
    obtain ⟨h1, h2, h3⟩ := raw_channels_range cell hf ho hsum
    refine ⟨h1, h2, h3, ?_⟩
    rw [hpix]
    unfold Vec3b.ofInts
    rw [uchar_of_int_eq h1.1 h1.2, uchar_of_int_eq h2.1 h2.2, uchar_of_int_eq h3.1 h3.2]
  refine ⟨hpix, hr, hg, hb, hs, hinv, ?_⟩
  intro hf ho
  have h := (hinv (le_of_eq hf.symm) (le_of_eq ho.symm) (by rw [hf, ho]; norm_num)).2.2.2
  rw [h]
  have hred : raw_red cell = 0 := by rw [hr, ho]; simp [truncQ]
  have hgreen : raw_green cell = 0 := by rw [hg, hf]; simp [truncQ]
  rw [hb, hred, hgreen]
  rfl

end Dogm

namespace Dogm

/-- C10. In `compute_particles_image` on an `n × n` grid: a particle at `(x, y)` with
`0 ≤ x < n` and `0 ≤ y < n` writes the pixel `(row trunc(y), column trunc(x))`, whose
coordinates are both inside `[0, n)`; any other particle leaves the image unchanged;
and a pixel of the result is non-black exactly when an in-grid particle `i <
particle_count` truncates to it. -/
theorem compute_particles_image_pixels (grid_map : DOGM)
    (hcount : grid_map.particle_count ≤ grid_map.particle_array.state.length) :
    (∀ (img : Mat) (x y : ℚ),
        (0 ≤ x ∧ x < (grid_map.getGridSize : ℚ)) ∧ (0 ≤ y ∧ y < (grid_map.getGridSize : ℚ)) →
          particle_loop_body grid_map.getGridSize img x y
              = img.setPixel (static_cast_int y) (static_cast_int x) ⟨0, 0, 255⟩
            ∧ (0 ≤ static_cast_int y ∧ static_cast_int y < (grid_map.getGridSize : Int))
            ∧ (0 ≤ static_cast_int x ∧ static_cast_int x < (grid_map.getGridSize : Int)))
      ∧ (∀ (img : Mat) (x y : ℚ),
        ¬ ((0 ≤ x ∧ x < (grid_map.getGridSize : ℚ)) ∧ (0 ≤ y ∧ y < (grid_map.getGridSize : ℚ))) →
          particle_loop_body grid_map.getGridSize img x y = img)
      ∧ (∀ row col : Nat, row < grid_map.getGridSize → col < grid_map.getGridSize →
          ((compute_particles_image grid_map).pixel row col ≠ ⟨0, 0, 0⟩
            ↔ ∃ (i : Nat) (p : Vec4), i < grid_map.particle_count
                ∧ grid_map.particle_array.state[i]? = some p
                ∧ (0 ≤ p.v0 ∧ p.v0 < (grid_map.getGridSize : ℚ))
                ∧ (0 ≤ p.v1 ∧ p.v1 < (grid_map.getGridSize : ℚ))
                ∧ static_cast_int p.v1 = (row : Int) ∧ static_cast_int p.v0 = (col : Int))) := by
  refine ⟨?_, ?_, ?_⟩
  · intro img x y h
    refine ⟨?_, static_cast_int_in_grid h.2.1 h.2.2, static_cast_int_in_grid h.1.1 h.1.2⟩
    unfold particle_loop_body
    rw [if_pos h]
    rfl
  · intro img x y h
    unfold particle_loop_body
    rw [if_neg h]
  · intro row col hrow hcol
    have himg : compute_particles_image grid_map
        = ⟨grid_map.getGridSize, grid_map.getGridSize,
            ((List.range grid_map.particle_count).filter (fun i => decide
              (((grid_map.particle_array.state.getD i default).v0 ≥ 0
                  ∧ (grid_map.particle_array.state.getD i default).v0
                    < (grid_map.getGridSize : ℚ))
                ∧ ((grid_map.particle_array.state.getD i default).v1 ≥ 0
                  ∧ (grid_map.particle_array.state.getD i default).v1
                    < (grid_map.getGridSize : ℚ))))).foldl
              (fun d i => d.set
                ((static_cast_int (grid_map.particle_array.state.getD i default).v1).toNat
                    * grid_map.getGridSize
                  + (static_cast_int (grid_map.particle_array.state.getD i default).v0).toNat)
                (Vec3b.ofInts 0 0 255))
              (List.replicate (grid_map.getGridSize * grid_map.getGridSize)
                (Vec3b.ofInts 0 0 0))⟩ := by
      unfold compute_particles_image particle_loop_body Mat.create
      simp only []
      rw [foldl_if_eq_filter]
      apply foldl_setPixel
      intro i hi
      have hc := (List.mem_filter.mp hi).2
      simp only [decide_eq_true_eq] at hc
      exact ⟨static_cast_int_in_grid hc.2.1 hc.2.2, static_cast_int_in_grid hc.1.1 hc.1.2⟩
    rw [himg]
    unfold Mat.pixel
    simp only []
    have hk : row * grid_map.getGridSize + col
        < (List.replicate (grid_map.getGridSize * grid_map.getGridSize)
            (Vec3b.ofInts 0 0 0)).length := by
      rw [List.length_replicate]; exact index_lt_of_lt hcol hrow
    constructor
    · intro hne
      by_contra hno
      apply hne
      rw [foldl_set_getD_miss]
      · simp only [List.getD_eq_getElem?_getD, List.getElem?_eq_getElem hk,
          List.getElem_replicate, Option.getD_some]
        rfl
      · intro i hi hidx
        apply hno
        have hc := (List.mem_filter.mp hi).2
        simp only [decide_eq_true_eq] at hc
        have hlt : i < grid_map.particle_count := List.mem_range.mp (List.mem_filter.mp hi).1
        have hilen : i < grid_map.particle_array.state.length := lt_of_lt_of_le hlt hcount
        have hget : grid_map.particle_array.state.getD i default
            = grid_map.particle_array.state[i] := by
          simp [List.getD_eq_getElem?_getD, List.getElem?_eq_getElem hilen]
        rw [hget] at hc hidx
        have hy := static_cast_int_in_grid hc.2.1 hc.2.2
        have hx := static_cast_int_in_grid hc.1.1 hc.1.2
        have hxn : (static_cast_int (grid_map.particle_array.state[i]).v0).toNat
            < grid_map.getGridSize := by omega
        obtain ⟨h1, h2⟩ := index_inj hxn hcol hidx
        refine ⟨i, grid_map.particle_array.state[i], hlt, List.getElem?_eq_getElem hilen,
          hc.1, hc.2, ?_, ?_⟩
        · omega
        · omega
    · rintro ⟨i, p, hlt, hp, hx, hy, hrow2, hcol2⟩
      have hget : grid_map.particle_array.state.getD i default = p := by
        simp [List.getD_eq_getElem?_getD, hp]
      rw [foldl_set_getD_hit _ (fun _ => Vec3b.ofInts 0 0 255) (fun _ => Vec3b.ofInts 0 0 255)
        _ (fun _ _ => rfl) _ _ _ ?_ hk]
      · decide
      · refine ⟨i, ?_, ?_⟩
        · rw [List.mem_filter]
          refine ⟨List.mem_range.mpr hlt, ?_⟩
          rw [hget]
          simp only [decide_eq_true_eq]
          exact ⟨hx, hy⟩
        · rw [hget, hrow2, hcol2]
          simp

end Dogm

namespace Dogm

/-! ## Instances at concrete inputs -/

/-- The colour encoding of C5 at the single pixel of `singleCellGrid`. -/
theorem compute_raw_measurement_grid_image_rgb_witness :
    0 < singleCellGrid.getGridSize
      ∧ singleCellGrid.meas_cell_array[0 * singleCellGrid.getGridSize + 0]?
        = some occupiedMeasurement
      ∧ 0 ≤ occupiedMeasurement.free_mass ∧ 0 ≤ occupiedMeasurement.occ_mass
      ∧ occupiedMeasurement.free_mass + occupiedMeasurement.occ_mass ≤ 1
      ∧ (compute_raw_measurement_grid_image singleCellGrid).pixel 0 0
        = ⟨raw_blue occupiedMeasurement, raw_green occupiedMeasurement,
            raw_red occupiedMeasurement⟩
      ∧ raw_red occupiedMeasurement + raw_green occupiedMeasurement
          + raw_blue occupiedMeasurement = 255 :=
  have h := compute_raw_measurement_grid_image_rgb singleCellGrid 0 0 occupiedMeasurement
    (by decide) (by decide) rfl
  ⟨by decide, rfl, by norm_num [occupiedMeasurement], by norm_num [occupiedMeasurement],
    by norm_num [occupiedMeasurement],
    (h.2.2.2.2.2.1 (by norm_num [occupiedMeasurement]) (by norm_num [occupiedMeasurement])
      (by norm_num [occupiedMeasurement])).2.2.2,
    h.2.2.2.2.1⟩

/-- The particle image of C10 at the single pixel of `singleCellGrid`. -/
theorem compute_particles_image_pixels_witness :
    singleCellGrid.particle_count ≤ singleCellGrid.particle_array.state.length
      ∧ ((compute_particles_image singleCellGrid).pixel 0 0 ≠ ⟨0, 0, 0⟩
          ↔ ∃ (i : Nat) (p : Vec4), i < singleCellGrid.particle_count
              ∧ singleCellGrid.particle_array.state[i]? = some p
              ∧ (0 ≤ p.v0 ∧ p.v0 < (singleCellGrid.getGridSize : ℚ))
              ∧ (0 ≤ p.v1 ∧ p.v1 < (singleCellGrid.getGridSize : ℚ))
              ∧ static_cast_int p.v1 = ((0 : Nat) : Int)
              ∧ static_cast_int p.v0 = ((0 : Nat) : Int)) :=
  ⟨by decide,
    (compute_particles_image_pixels singleCellGrid (by decide)).2.2 0 0
      (by decide) (by decide)⟩

end Dogm

namespace Dogm

/-! ### Pixel writes at arbitrary coordinates -/

theorem setPixel_shape (m : Mat) (row col : Int) (v : Vec3b) :
    (m.setPixel row col v).rows = m.rows ∧ (m.setPixel row col v).cols = m.cols
      ∧ (m.setPixel row col v).data.length = m.data.length := by
  unfold Mat.setPixel
  split
  · exact ⟨rfl, rfl, List.length_set _ _ _⟩
  · exact ⟨rfl, rfl, rfl⟩

theorem setPixel_pixel_same (m : Mat) (r c : Nat) (v : Vec3b) (hr : r < m.rows)
    (hc : c < m.cols) (hlen : m.data.length = m.rows * m.cols) :
    (m.setPixel r c v).pixel r c = v := by
  have hidx : r * m.cols + c < m.data.length := by
    rw [hlen]
    calc r * m.cols + c < r * m.cols + m.cols := by omega
      _ = (r + 1) * m.cols := by ring
      _ ≤ m.rows * m.cols := Nat.mul_le_mul_right _ hr
  unfold Mat.setPixel Mat.pixel
  have h : 0 ≤ (r : Int) ∧ (r : Int) < (m.rows : Int) ∧ 0 ≤ (c : Int) ∧ (c : Int) < (m.cols : Int) :=
    ⟨by omega, by omega, by omega, by omega⟩
  simp only [h, and_self, if_true, Int.toNat_ofNat]
  simp [List.getD_eq_getElem?_getD, List.getElem?_set, hidx]

theorem setPixel_pixel_other (m : Mat) (row col : Int) (r c : Nat) (v : Vec3b)
    (hc : c < m.cols) (hne : ¬ (row = (r : Int) ∧ col = (c : Int))) :
    (m.setPixel row col v).pixel r c = m.pixel r c := by
  unfold Mat.setPixel
  split
  · rename_i h
    unfold Mat.pixel
    have hcol : col.toNat < m.cols := by omega
    have hidx : row.toNat * m.cols + col.toNat ≠ r * m.cols + c := by
      intro heq
      obtain ⟨h1, h2⟩ := index_inj hcol hc heq
      apply hne
      constructor <;> omega
    simp [List.getD_eq_getElem?_getD, List.getElem?_set, hidx]
  · rfl

/-- After a sequence of pixel writes, a pixel no write addresses is unchanged, and a
pixel some write addresses holds the value of one of the writes that address it. -/
theorem foldl_setPixel_pixel {α : Type} (r c : α → Int) (v : α → Vec3b) (l : List α)
    (m : Mat) (row col : Nat) (hrow : row < m.rows) (hcol : col < m.cols)
    (hlen : m.data.length = m.rows * m.cols) :
    ((∀ a ∈ l, ¬ (r a = (row : Int) ∧ c a = (col : Int))) →
        (l.foldl (fun img a => img.setPixel (r a) (c a) (v a)) m).pixel row col
          = m.pixel row col)
      ∧ ((∃ a ∈ l, r a = (row : Int) ∧ c a = (col : Int)) →
        ∃ a ∈ l, (r a = (row : Int) ∧ c a = (col : Int))
          ∧ (l.foldl (fun img a => img.setPixel (r a) (c a) (v a)) m).pixel row col = v a) := by
  induction l generalizing m with
  | nil =>
    refine ⟨fun _ => rfl, ?_⟩
    rintro ⟨a, ha, _⟩
    cases ha
  | cons a t ih =>
    obtain ⟨hs1, hs2, hs3⟩ := setPixel_shape m (r a) (c a) (v a)
    have ih2 := ih (m.setPixel (r a) (c a) (v a)) (by rw [hs1]; exact hrow)
      (by rw [hs2]; exact hcol) (by rw [hs1, hs2, hs3]; exact hlen)
    rw [List.foldl_cons]
    constructor
    · intro hmiss
      rw [ih2.1 (fun b hb => hmiss b (List.mem_cons_of_mem a hb))]
      exact setPixel_pixel_other m _ _ row col _ hcol (hmiss a (List.mem_cons_self a t))
    · intro hhit
      by_cases ht : ∃ b ∈ t, r b = (row : Int) ∧ c b = (col : Int)
      · obtain ⟨b, hb, hbp, hbv⟩ := ih2.2 ht
        exact ⟨b, List.mem_cons_of_mem a hb, hbp, hbv⟩
      · have hmiss : ∀ b ∈ t, ¬ (r b = (row : Int) ∧ c b = (col : Int)) :=
          fun b hb hbp => ht ⟨b, hb, hbp⟩
        obtain ⟨b, hb, hbp⟩ := hhit
        rcases List.mem_cons.mp hb with rfl | hb2
        · refine ⟨b, List.mem_cons_self b t, hbp, ?_⟩
          rw [ih2.1 hmiss, hbp.1, hbp.2]
          exact setPixel_pixel_same m row col _ hrow hcol hlen
        · exact absurd hbp (hmiss b hb2)

/-- The image the loop nest produces has `n` rows, `n` columns and `n * n` pixels. -/
theorem forEachCell_setPixel_shape (n : Nat) (g : Nat → Vec3b) (fill : Vec3b) :
    (forEachCell n (fun (img : Mat) y x index => img.setPixel y x (g index))
        (Mat.create n n fill)).rows = n
      ∧ (forEachCell n (fun (img : Mat) y x index => img.setPixel y x (g index))
        (Mat.create n n fill)).cols = n
      ∧ (forEachCell n (fun (img : Mat) y x index => img.setPixel y x (g index))
        (Mat.create n n fill)).data.length = n * n := by
  rw [forEachCell_eq_foldl]
  unfold Mat.create
  rw [foldl_setPixel n (fun p : Nat × Nat => (p.1 : Int)) (fun p => (p.2 : Int))
    (fun p => g (p.1 * n + p.2)) (cellCoords n)
    (fun p hp => by have := mem_cellCoords.mp hp; beta_reduce; omega)]
  refine ⟨rfl, rfl, ?_⟩
  simp only []
  rw [foldl_set_length, List.length_replicate]

end Dogm

namespace Dogm

/-! ### Bounds on rounded values -/

theorem fl32_sub_le_of_lt_two {x : ℚ} (hx : |x| < 2) :
    x - 1 / 16777216 ≤ fl32 x ∧ fl32 x ≤ x + 1 / 16777216 := by
  have h := roundBinary_sub_le_of_lt 24 (-126) 0 x (by norm_num) (by norm_num; exact hx)
  norm_num at h
  unfold fl32
  constructor <;> linarith [h.1, h.2]

theorem fl32_le_add_of_lt_256 {x : ℚ} (hx : |x| < 256) : fl32 x ≤ x + 1 / 131072 := by
  have h := roundBinary_sub_le_of_lt 24 (-126) 7 x (by norm_num) (by norm_num; exact hx)
  norm_num at h
  unfold fl32
  linarith [h.2]

/-- The `float` value of the pignistic transformation of masses under the invariant lies
between `0` and `1` up to the last rounding. -/
theorem pignistic_fl_bounds (free_mass occ_mass : ℚ) (hrep : fl32 free_mass = free_mass)
    (hf : 0 ≤ free_mass) (ho : 0 ≤ occ_mass) (hsum : free_mass + occ_mass ≤ 1) :
    0 ≤ pignistic_transformation_fl ieee754 free_mass occ_mass
      ∧ pignistic_transformation_fl ieee754 free_mass occ_mass ≤ 1 + 1 / 4194304 := by
  unfold pignistic_transformation_fl ieee754
  simp only []
  have h10 : (1.0 : ℚ) = 1 := by norm_num
  have h05 : (0.5 : ℚ) = 1 / 2 := by norm_num
  rw [h10, h05]
  -- first operation
  have ha1lo : free_mass ≤ fl32 (1 - occ_mass) := by
    have := fl32_mono hf (by linarith : free_mass ≤ 1 - occ_mass)
    rwa [hrep] at this
  have ha1hi := (fl32_sub_le_of_lt_two (x := 1 - occ_mass)
    (by rw [abs_lt]; constructor <;> linarith)).2
  -- second operation
  have hx2lo : 0 ≤ fl32 (1 - occ_mass) - free_mass := by linarith
  have ha2lo := fl32_nonneg hx2lo
  have ha2hi := (fl32_sub_le_of_lt_two (x := fl32 (1 - occ_mass) - free_mass)
    (by rw [abs_lt]; constructor <;> linarith)).2
  -- third operation
  have hx3lo : 0 ≤ 1 / 2 * fl32 (fl32 (1 - occ_mass) - free_mass) := by linarith
  have ha3lo := fl32_nonneg hx3lo
  have ha3hi := (fl32_sub_le_of_lt_two (x := 1 / 2 * fl32 (fl32 (1 - occ_mass) - free_mass))
    (by rw [abs_lt]; constructor <;> linarith)).2
  -- fourth operation
  have hx4lo : 0 ≤ occ_mass + fl32 (1 / 2 * fl32 (fl32 (1 - occ_mass) - free_mass)) := by
    linarith
  have ha4hi := (fl32_sub_le_of_lt_two
    (x := occ_mass + fl32 (1 / 2 * fl32 (fl32 (1 - occ_mass) - free_mass)))
    (by rw [abs_lt]; constructor <;> linarith)).2
  exact ⟨fl32_nonneg hx4lo, by linarith⟩

/-- Under the mass invariant both renderers compute the gray level `255 - ⌊q⌋` from the
same `float` product `q`, and `⌊q⌋` lies in `[0, 255]`. -/
theorem gray_levels_fl (free_mass occ_mass : ℚ) (hrep : fl32 free_mass = free_mass)
    (hf : 0 ≤ free_mass) (ho : 0 ≤ occ_mass) (hsum : free_mass + occ_mass ≤ 1) :
    measurement_grid_gray ieee754 free_mass occ_mass
        = 255 - ⌊fl32 (pignistic_transformation_fl ieee754 free_mass occ_mass * 255)⌋
      ∧ dogm_grayscale_value ieee754 free_mass occ_mass
        = 255 - ⌊fl32 (pignistic_transformation_fl ieee754 free_mass occ_mass * 255)⌋
      ∧ 0 ≤ ⌊fl32 (pignistic_transformation_fl ieee754 free_mass occ_mass * 255)⌋
      ∧ ⌊fl32 (pignistic_transformation_fl ieee754 free_mass occ_mass * 255)⌋ ≤ 255
      ∧ 0 ≤ fl32 (pignistic_transformation_fl ieee754 free_mass occ_mass * 255) := by
  obtain ⟨hp0, hp1⟩ := pignistic_fl_bounds free_mass occ_mass hrep hf ho hsum
  have hx0 : 0 ≤ pignistic_transformation_fl ieee754 free_mass occ_mass * 255 := by positivity
  have hq0 := fl32_nonneg hx0
  have hq1 := fl32_le_add_of_lt_256
    (x := pignistic_transformation_fl ieee754 free_mass occ_mass * 255)
    (by rw [abs_lt]; constructor <;> linarith)
  have hfl0 : 0 ≤ ⌊fl32 (pignistic_transformation_fl ieee754 free_mass occ_mass * 255)⌋ :=
    Int.floor_nonneg.mpr hq0
  have hfl1 : ⌊fl32 (pignistic_transformation_fl ieee754 free_mass occ_mass * 255)⌋ ≤ 255 := by
    have : ⌊fl32 (pignistic_transformation_fl ieee754 free_mass occ_mass * 255)⌋ < 256 := by
      rw [Int.floor_lt]
      push_cast
      linarith
    omega
  refine ⟨?_, ?_, hfl0, hfl1, hq0⟩
  · unfold measurement_grid_gray static_cast_uchar
    have h255 : (255.0 : ℚ) = 255 := by norm_num
    simp only [h255]
    have hR : ieee754.f32 = fl32 := rfl
    rw [hR, truncQ_of_nonneg hq0, uchar_of_int_eq hfl0 hfl1,
      uchar_of_int_eq (by omega) (by omega)]
  · unfold dogm_grayscale_value static_cast_uchar
    simp only []
    have hR : ieee754.f32 = fl32 := rfl
    rw [hR, truncQ_intCast, uchar_of_int_eq hfl0 hfl1, uchar_of_int_eq (by omega) (by omega)]

end Dogm

namespace Dogm

/-- The remainder of a value of `[180, 540]` by `360`. -/
theorem fmodf_360 {s : ℚ} (h0 : 180 ≤ s) (h1 : s ≤ 540) :
    fmodf s 360 = realMod s 360
      ∧ (s < 360 → realMod s 360 = s) ∧ (360 ≤ s → realMod s 360 = s - 360) := by
  have hq0 : 0 ≤ s / 360 := by apply div_nonneg <;> linarith
  refine ⟨?_, ?_, ?_⟩
  · unfold fmodf realMod
    rw [truncQ_of_nonneg hq0]
    ring
  · intro hlt
    have hfloor : ⌊s / 360⌋ = 0 := by
      rw [Int.floor_eq_iff]
      constructor
      · simpa using hq0
      · rw [div_lt_iff₀ (by norm_num)]
        push_cast
        linarith
    unfold realMod
    rw [hfloor]
    simp
  · intro hge
    have hfloor : ⌊s / 360⌋ = 1 := by
      rw [Int.floor_eq_iff]
      constructor
      · rw [le_div_iff₀ (by norm_num)]
        push_cast
        linarith
      · rw [div_lt_iff₀ (by norm_num)]
        push_cast
        linarith
    unfold realMod
    rw [hfloor]
    push_cast
    ring

/-- A `float` sum `a + 360` below `360` is at most `256` or at most the largest `float`
below `360`. -/
theorem fl32_lt_360 {t : ℚ} (ht0 : 0 ≤ t) (hlt : fl32 t < 360) :
    fl32 t ≤ 256 ∨ fl32 t ≤ 360 - 1 / 32768 := by
  rcases lt_or_le t 256 with h | h
  · left
    have := fl32_mono ht0 h.le
    rwa [fl32_256] at this
  · right
    have ht512 : t < 512 := by
      by_contra hc
      push_neg at hc
      have := fl32_mono (by norm_num) hc
      rw [fl32_512] at this
      linarith
    obtain ⟨k, hk⟩ := roundBinary_grid 24 (-126) t 8 (by norm_num)
      (by norm_num; exact h) (by norm_num; exact ht512)
    have hs : fl32 t = (k : ℚ) / 32768 := by
      unfold fl32
      rw [hk]
      norm_num
      ring
    rw [hs] at hlt ⊢
    have hk1 : (k : ℚ) < 11796480 := by
      rw [div_lt_iff₀ (by norm_num)] at hlt
      linarith
    have hk2 : k ≤ 11796479 := by
      have : k < 11796480 := by exact_mod_cast hk1
      omega
    have hk3 : (k : ℚ) ≤ 11796479 := by exact_mod_cast hk2
    rw [div_le_iff₀ (by norm_num)]
    linarith

/-- The hue the machine computes for a direction of `[-180, 180]` degrees. -/
theorem hue_opencv_ieee754 (a : ℚ) (hlo : -180 ≤ a) (hhi : a ≤ 180) :
    hue_opencv ieee754 a = truncQ (fl32 (0.5 * realMod (fl32 (fl64 (a + 360))) 360))
      ∧ 0 ≤ hue_opencv ieee754 a ∧ hue_opencv ieee754 a ≤ 179 := by
  have ht0 : 180 ≤ fl64 (a + 360) := by
    have := fl64_mono (by norm_num : (0 : ℚ) ≤ 180) (by linarith : (180 : ℚ) ≤ a + 360)
    rwa [fl64_180] at this
  have ht1 : fl64 (a + 360) ≤ 540 := by
    have := fl64_mono (by linarith : (0 : ℚ) ≤ a + 360) (by linarith : a + 360 ≤ 540)
    rwa [fl64_540] at this
  have hs0 : 180 ≤ fl32 (fl64 (a + 360)) := by
    have := fl32_mono (by norm_num : (0 : ℚ) ≤ 180) ht0
    rwa [fl32_180] at this
  have hs1 : fl32 (fl64 (a + 360)) ≤ 540 := by
    have := fl32_mono (by linarith : (0 : ℚ) ≤ fl64 (a + 360)) ht1
    rwa [fl32_540] at this
  obtain ⟨hmod, hr1, hr2⟩ := fmodf_360 hs0 hs1
  have h05 : (0.5 : ℚ) = 1 / 2 := by norm_num
  have hr0 : 0 ≤ realMod (fl32 (fl64 (a + 360))) 360 := by
    rcases lt_or_le (fl32 (fl64 (a + 360))) 360 with h | h
    · rw [hr1 h]; linarith
    · rw [hr2 h]; linarith
  have hx0 : 0 ≤ 0.5 * realMod (fl32 (fl64 (a + 360))) 360 := by
    rw [h05]; linarith
  have hh0 : 0 ≤ fl32 (0.5 * realMod (fl32 (fl64 (a + 360))) 360) := fl32_nonneg hx0
  have hh1 : fl32 (0.5 * realMod (fl32 (fl64 (a + 360))) 360) < 180 := by
    rcases lt_or_le (fl32 (fl64 (a + 360))) 360 with h | h
    · rw [hr1 h]
      rcases fl32_lt_360 (by linarith : (0 : ℚ) ≤ fl64 (a + 360)) h with h2 | h2
      · have := fl32_mono (by rw [h05]; linarith)
          (by rw [h05]; linarith : 0.5 * fl32 (fl64 (a + 360)) ≤ 128)
        rw [fl32_128] at this
        linarith
      · have := fl32_mono (by rw [h05]; linarith)
          (by rw [h05]; linarith : 0.5 * fl32 (fl64 (a + 360)) ≤ 180 - 1 / 65536)
        rw [fl32_pred_180] at this
        linarith
    · rw [hr2 h]
      have := fl32_mono (by rw [h05]; linarith)
        (by rw [h05]; linarith : 0.5 * (fl32 (fl64 (a + 360)) - 360) ≤ 90)
      rw [fl32_90] at this
      linarith
  have ht0 : 0 ≤ truncQ (fl32 (0.5 * realMod (fl32 (fl64 (a + 360))) 360)) := by
    rw [truncQ_of_nonneg hh0]; exact Int.floor_nonneg.mpr hh0
  have ht1 : truncQ (fl32 (0.5 * realMod (fl32 (fl64 (a + 360))) 360)) ≤ 179 := by
    rw [truncQ_of_nonneg hh0]
    have : ⌊fl32 (0.5 * realMod (fl32 (fl64 (a + 360))) 360)⌋ < 180 := by
      rw [Int.floor_lt]; exact_mod_cast hh1
    omega
  have heq : hue_opencv ieee754 a
      = truncQ (fl32 (0.5 * realMod (fl32 (fl64 (a + 360))) 360)) := by
    unfold hue_opencv static_cast_uint8 ieee754
    simp only [hmod]
    rw [mul_comm (realMod (fl32 (fl64 (a + 360))) 360) 0.5]
    exact uchar_of_int_eq ht0 (by omega)
  rw [heq]
  exact ⟨rfl, ht0, ht1⟩

end Dogm

namespace Dogm

end Dogm

namespace Dogm

/-- C9. Whatever the rounding of the arithmetic, the list returned by
`computeCellsWithVelocity` on a grid of size `n` (cell array of `n * n` elements) is in
row-major order without repeats: the indices `y * n + x` of
its points increase strictly along the list, its length is at most `n * n`, and every
returned point has `0 ≤ x < n`, `0 ≤ y < n`, data equal to `grid_cell_array[y * n + x]`
and `cluster_id = UNCLASSIFIED`. -/
theorem computeCellsWithVelocity_row_major (R : Rounding) (grid_map : DOGM) (t1 t2 : ℚ) (U : Int)
    (hlen : grid_map.grid_cell_array.length = grid_map.getGridSize * grid_map.getGridSize) :
    List.Pairwise (fun p q => pointIndex grid_map.getGridSize p < pointIndex grid_map.getGridSize q)
        (computeCellsWithVelocity R grid_map t1 t2 U)
      ∧ List.Chain' (fun p q => pointIndex grid_map.getGridSize p < pointIndex grid_map.getGridSize q)
        (computeCellsWithVelocity R grid_map t1 t2 U)
      ∧ (computeCellsWithVelocity R grid_map t1 t2 U).Nodup
      ∧ (computeCellsWithVelocity R grid_map t1 t2 U).length
          ≤ grid_map.getGridSize * grid_map.getGridSize
      ∧ ∀ p ∈ computeCellsWithVelocity R grid_map t1 t2 U,
          ∃ x y : Nat, x < grid_map.getGridSize ∧ y < grid_map.getGridSize
            ∧ p.x = (x : ℚ) ∧ p.y = (y : ℚ)
            ∧ grid_map.grid_cell_array[y * grid_map.getGridSize + x]? = some p.data
            ∧ p.cluster_id = U := by
  have hpw : List.Pairwise
      (fun p q => pointIndex grid_map.getGridSize p < pointIndex grid_map.getGridSize q)
      (computeCellsWithVelocity R grid_map t1 t2 U) := by
    rw [computeCellsWithVelocity_eq, List.pairwise_map]
    refine List.Pairwise.imp ?_
      (List.Pairwise.sublist (List.filter_sublist _) (cellCoords_pairwise grid_map.getGridSize))
    intro a b hab
    rw [pointIndex_mk, pointIndex_mk]
    exact_mod_cast hab
  refine ⟨hpw, hpw.chain', ?_, ?_, ?_⟩
  · exact hpw.imp (fun {a b} h hab => by rw [hab] at h; exact lt_irrefl _ h)
  · rw [computeCellsWithVelocity_eq, List.length_map, ← cellCoords_length]
    exact List.length_filter_le _ _
  · intro p hp
    rw [computeCellsWithVelocity_eq, List.mem_map] at hp
    obtain ⟨⟨y, x⟩, hmem, rfl⟩ := hp
    have hc := (mem_cellCoords.mp (List.mem_filter.mp hmem).1)
    have hlt : y * grid_map.getGridSize + x < grid_map.grid_cell_array.length := by
      rw [hlen]; exact index_lt_of_lt hc.2 hc.1
    refine ⟨x, y, hc.2, hc.1, rfl, rfl, ?_, rfl⟩
    simp [List.getD_eq_getElem?_getD, List.getElem?_eq_getElem hlt]


end Dogm

namespace Dogm

/-- The image `compute_dogm_image` hands to `addColorWheelToBottomRightCorner`: a pixel no
cell of `cells_with_velocity` addresses holds the gray level of its grid cell, a pixel
some cell addresses holds the converted hue of one of the cells that address it. -/
theorem compute_dogm_image_pixels (R : Rounding) (atan2_degrees : ℚ → ℚ → ℚ)
    (cvtColor_HSV2RGB : Vec3b → Vec3b) (addColorWheelToBottomRightCorner : Mat → Mat)
    (grid_map : DOGM) (cells_with_velocity : List (Point GridCell)) :
    ∃ img : Mat,
      compute_dogm_image R atan2_degrees cvtColor_HSV2RGB addColorWheelToBottomRightCorner
          grid_map cells_with_velocity = addColorWheelToBottomRightCorner img
        ∧ ∀ row col : Nat, row < grid_map.getGridSize → col < grid_map.getGridSize →
          ((∀ cell ∈ cells_with_velocity,
                ¬ (static_cast_int cell.y = (row : Int) ∧ static_cast_int cell.x = (col : Int))) →
              img.pixel row col
                = ⟨dogm_grayscale_value R
                      (grid_map.grid_cell_array.getD (row * grid_map.getGridSize + col)
                        default).free_mass
                      (grid_map.grid_cell_array.getD (row * grid_map.getGridSize + col)
                        default).occ_mass,
                    dogm_grayscale_value R
                      (grid_map.grid_cell_array.getD (row * grid_map.getGridSize + col)
                        default).free_mass
                      (grid_map.grid_cell_array.getD (row * grid_map.getGridSize + col)
                        default).occ_mass,
                    dogm_grayscale_value R
                      (grid_map.grid_cell_array.getD (row * grid_map.getGridSize + col)
                        default).free_mass
                      (grid_map.grid_cell_array.getD (row * grid_map.getGridSize + col)
                        default).occ_mass⟩)
            ∧ ((∃ cell ∈ cells_with_velocity,
                  static_cast_int cell.y = (row : Int) ∧ static_cast_int cell.x = (col : Int)) →
              ∃ cell ∈ cells_with_velocity,
                (static_cast_int cell.y = (row : Int) ∧ static_cast_int cell.x = (col : Int))
                  ∧ img.pixel row col
                    = cvtColor_HSV2RGB (Vec3b.ofInts
                        (hue_opencv R
                          (atan2_degrees cell.data.mean_y_vel cell.data.mean_x_vel))
                        255 255)) := by
  refine ⟨_, rfl, ?_⟩
  intro row col hrow hcol
  obtain ⟨hs1, hs2, hs3⟩ := forEachCell_setPixel_shape grid_map.getGridSize
    (fun index => (⟨dogm_grayscale_value R
        (grid_map.grid_cell_array.getD index default).free_mass
        (grid_map.grid_cell_array.getD index default).occ_mass,
      dogm_grayscale_value R
        (grid_map.grid_cell_array.getD index default).free_mass
        (grid_map.grid_cell_array.getD index default).occ_mass,
      dogm_grayscale_value R
        (grid_map.grid_cell_array.getD index default).free_mass
        (grid_map.grid_cell_array.getD index default).occ_mass⟩ : Vec3b)) default
  have hgray := forEachCell_setPixel_pixel grid_map.getGridSize
    (fun index => (⟨dogm_grayscale_value R
        (grid_map.grid_cell_array.getD index default).free_mass
        (grid_map.grid_cell_array.getD index default).occ_mass,
      dogm_grayscale_value R
        (grid_map.grid_cell_array.getD index default).free_mass
        (grid_map.grid_cell_array.getD index default).occ_mass,
      dogm_grayscale_value R
        (grid_map.grid_cell_array.getD index default).free_mass
        (grid_map.grid_cell_array.getD index default).occ_mass⟩ : Vec3b)) default
    col row hcol hrow
  have hfold := foldl_setPixel_pixel
    (fun cell : Point GridCell => static_cast_int cell.y)
    (fun cell : Point GridCell => static_cast_int cell.x)
    (fun cell : Point GridCell => cvtColor_HSV2RGB (Vec3b.ofInts
      (hue_opencv R (atan2_degrees cell.data.mean_y_vel cell.data.mean_x_vel)) 255 255))
    cells_with_velocity _ row col (by rw [hs1]; exact hrow) (by rw [hs2]; exact hcol)
    (by rw [hs1, hs2, hs3])
  constructor
  · intro hmiss
    have h := hfold.1 hmiss
    rw [hgray] at h
    exact h
  · intro hhit
    exact hfold.2 hhit

end Dogm

namespace Dogm

/-! ### Values at the example cells -/

theorem fl32_quarter : fl32 (1 / 4) = 1 / 4 :=
  roundBinary_eq_of_repr 24 (-126) (1 / 4) (-2) 8388608 (by norm_num) (by norm_num)
    (by norm_num) (by norm_num)

/-- The value the machine computes for `velocity_mean.t() * velocity_covar.inv() *
velocity_mean` at a cell with mean velocity `(1, 0)` and unit covariance. -/
theorem velocity_unit_x (c : GridCell) (h1 : c.mean_x_vel = 1) (h2 : c.mean_y_vel = 0)
    (h3 : c.var_x_vel = 1) (h4 : c.var_y_vel = 1) (h5 : c.covar_xy_vel = 0) :
    velocity_normalized_by_variance ieee754 c = 1 := by
  unfold velocity_normalized_by_variance Mat2x2.inv Mat1x2.mul Mat1x2.mulVec Mat2x1.t ieee754
  simp only [h1, h2, h3, h4, h5]
  norm_num [fl32_zero, fl32_one, fl64_zero, fl64_one]

theorem velocity_emptyCell : velocity_normalized_by_variance ieee754 emptyCell = 0 := by
  unfold velocity_normalized_by_variance Mat2x2.inv Mat1x2.mul Mat1x2.mulVec Mat2x1.t ieee754
    emptyCell
  norm_num [fl32_zero, fl32_one, fl64_zero, fl64_one]

theorem pignistic_movingCell :
    pignistic_transformation_fl ieee754 movingCell.free_mass movingCell.occ_mass = 1 := by
  unfold pignistic_transformation_fl ieee754 movingCell
  norm_num [fl32_zero, fl32_one]

theorem pignistic_emptyCell :
    pignistic_transformation_fl ieee754 emptyCell.free_mass emptyCell.occ_mass = 0 := by
  unfold pignistic_transformation_fl ieee754 emptyCell
  norm_num [fl32_zero, fl32_one]

end Dogm

namespace Dogm

end Dogm

namespace Dogm

/-- At the direction `-2 ^ (-27)` degrees the sum with `360` rounds to `360.0f`, so the
hue the machine computes is `0`. -/
theorem hue_opencv_small_negative : hue_opencv ieee754 (-(1 / 134217728)) = 0 := by
  have hA : fl64 (48318382079 / 134217728) = 48318382079 / 134217728 :=
    roundBinary_eq_of_repr 53 (-1022) _ 8 6333186975858688 (by norm_num)
      (by norm_num) (by norm_num) (by norm_num)
  have hB : fl32 (48318382079 / 134217728) = 360 := by
    have h := roundBinary_eval 24 (-126) (48318382079 / 134217728) 8 (11796479 + 1)
      (by norm_num) (by norm_num) (by norm_num)
      (roundHalfEven_eq_of_gt (by norm_num) (by norm_num))
    unfold fl32
    rw [h]
    norm_num
  unfold hue_opencv ieee754
  simp only []
  rw [show (-(1 / 134217728 : ℚ) + 360) = 48318382079 / 134217728 by norm_num, hA, hB]
  have hmod : fmodf (360 : ℚ) 360 = 0 := by
    unfold fmodf
    have : truncQ ((360 : ℚ) / 360) = 1 := by
      rw [show ((360 : ℚ) / 360) = ((1 : Int) : ℚ) by norm_num, truncQ_intCast]
    rw [this]
    norm_num
  rw [hmod]
  norm_num [fl32_zero, static_cast_uint8, uchar_of_int, truncQ]

/-- The hue the formula of exact arithmetic gives at the direction `-2 ^ (-27)`
degrees. -/
theorem hue_exact_small_negative :
    truncQ ((0.5 : ℚ) * realMod (-(1 / 134217728) + 360) 360) = 179 := by
  have hfloor : ⌊(-(1 / 134217728 : ℚ) + 360) / 360⌋ = 0 := by
    rw [Int.floor_eq_iff]
    constructor <;> norm_num
  unfold realMod
  rw [hfloor]
  have hnn : (0 : ℚ) ≤ 0.5 * (-(1 / 134217728) + 360 - 360 * ((0 : Int) : ℚ)) := by norm_num
  rw [truncQ_of_nonneg hnn, Int.floor_eq_iff]
  constructor <;> norm_num

/-- The `float` pignistic occupancy of `faintMeasurement`. -/
theorem pignistic_faintMeasurement :
    pignistic_transformation_fl ieee754 faintMeasurement.free_mass faintMeasurement.occ_mass
      = 4243649 / 8388608 := by
  have hA : fl32 (16579837 / 16777216) = 16579837 / 16777216 :=
    roundBinary_eq_of_repr 24 (-126) _ (-1) 16579837 (by norm_num)
      (by norm_num) (by norm_num) (by norm_num)
  have hC : fl32 (16579837 / 33554432) = 16579837 / 33554432 :=
    roundBinary_eq_of_repr 24 (-126) _ (-2) 16579837 (by norm_num)
      (by norm_num) (by norm_num) (by norm_num)
  have hD : fl32 (16974595 / 33554432) = 4243649 / 8388608 := by
    have h := roundBinary_eval 24 (-126) (16974595 / 33554432) (-1) (8487297 + 1)
      (by norm_num) (by norm_num) (by norm_num)
      (roundHalfEven_eq_of_tie_odd (by norm_num) (by norm_num))
    unfold fl32
    rw [h]
    norm_num
  unfold pignistic_transformation_fl ieee754 faintMeasurement
  simp only []
  rw [show ((1.0 : ℚ) - 197379 / 16777216) = 16579837 / 16777216 by norm_num, hA,
    show ((16579837 : ℚ) / 16777216 - 0) = 16579837 / 16777216 by norm_num, hA,
    show ((0.5 : ℚ) * (16579837 / 16777216)) = 16579837 / 33554432 by norm_num, hC,
    show ((197379 : ℚ) / 16777216 + 16579837 / 33554432) = 16974595 / 33554432 by norm_num,
    hD]

/-- The `float` product of that occupancy with `255` is `129`. -/
theorem product_faintMeasurement : fl32 (4243649 / 8388608 * 255) = 129 := by
  have h := roundBinary_eval 24 (-126) (4243649 / 8388608 * 255) 7 8454144
    (by norm_num) (by norm_num) (by norm_num)
    (roundHalfEven_eq_of_lt (by norm_num) (by norm_num))
  unfold fl32
  rw [h]
  norm_num

/-- Both renderers compute the gray level `126` for the masses of `faintMeasurement`. -/
theorem gray_faintMeasurement :
    measurement_grid_gray ieee754 faintMeasurement.free_mass faintMeasurement.occ_mass = 126
      ∧ dogm_grayscale_value ieee754 faintMeasurement.free_mass faintMeasurement.occ_mass
        = 126 := by
  have hR : ieee754.f32 = fl32 := rfl
  constructor
  · unfold measurement_grid_gray
    simp only []
    rw [pignistic_faintMeasurement, hR,
      show ((4243649 : ℚ) / 8388608 * 255.0) = 4243649 / 8388608 * 255 by norm_num,
      product_faintMeasurement]
    have : truncQ (129 : ℚ) = 129 := by
      have := truncQ_intCast 129
      simpa using this
    unfold static_cast_uchar
    rw [this]
    decide
  · unfold dogm_grayscale_value
    simp only []
    rw [pignistic_faintMeasurement, hR, product_faintMeasurement]
    have hf : ⌊(129 : ℚ)⌋ = 129 := by
      rw [Int.floor_eq_iff]
      constructor <;> norm_num
    rw [hf]
    have : truncQ (((129 : Int) : ℚ)) = 129 := truncQ_intCast 129
    unfold static_cast_uchar
    rw [this]
    decide

/-- The gray level the formula of exact arithmetic gives for the masses of
`faintMeasurement`. -/
theorem gray_exact_faintMeasurement :
    255 - truncQ (255 * pignistic_transformation faintMeasurement.free_mass
      faintMeasurement.occ_mass) = 127 := by
  have hv : 255 * pignistic_transformation faintMeasurement.free_mass
      faintMeasurement.occ_mass = 4328521725 / 33554432 := by
    unfold pignistic_transformation faintMeasurement
    norm_num
  rw [hv]
  have hnn : (0 : ℚ) ≤ 4328521725 / 33554432 := by norm_num
  have hfl : ⌊(4328521725 : ℚ) / 33554432⌋ = 128 := by
    rw [Int.floor_eq_iff]
    constructor <;> norm_num
  rw [truncQ_of_nonneg hnn, hfl]
  norm_num

end Dogm

namespace Dogm

theorem pignistic_fl_occupied : pignistic_transformation_fl ieee754 0 1 = 1 := by
  unfold pignistic_transformation_fl ieee754
  norm_num [fl32_zero, fl32_one]

theorem pignistic_fl_free : pignistic_transformation_fl ieee754 1 0 = 0 := by
  unfold pignistic_transformation_fl ieee754
  norm_num [fl32_zero, fl32_one]

theorem floor_fl32_255 : ⌊fl32 (1 * 255)⌋ = 255 := by
  rw [one_mul, fl32_255]
  exact floor_255

theorem floor_fl32_zero : ⌊fl32 (0 * 255)⌋ = 0 := by
  rw [zero_mul, fl32_zero]
  simp

end Dogm

namespace Dogm

/-- C6, amended. In the image `compute_dogm_image` hands to the colour wheel, a pixel
addressed by a cell of `cells_with_velocity` holds the conversion of the hue of such a
cell; with `a` the direction of its mean velocity in degrees, `-180 ≤ a ≤ 180`, that hue
is `trunc(fl(0.5 * (fl(a + 360) mod 360)))`, where `fl` rounds to `float` (the sum is
rounded before the remainder is taken), and it lies in the OpenCV hue range
`[0, 179]`. -/
theorem compute_dogm_image_hue (atan2_degrees : ℚ → ℚ → ℚ) (cvtColor_HSV2RGB : Vec3b → Vec3b)
    (addColorWheelToBottomRightCorner : Mat → Mat) (grid_map : DOGM)
    (cells_with_velocity : List (Point GridCell))
    (hangle : ∀ cell ∈ cells_with_velocity,
      -180 ≤ atan2_degrees cell.data.mean_y_vel cell.data.mean_x_vel
        ∧ atan2_degrees cell.data.mean_y_vel cell.data.mean_x_vel ≤ 180) :
    (∀ cell ∈ cells_with_velocity,
        hue_opencv ieee754 (atan2_degrees cell.data.mean_y_vel cell.data.mean_x_vel)
            = truncQ (fl32 (0.5 * realMod
                (fl32 (fl64 (atan2_degrees cell.data.mean_y_vel cell.data.mean_x_vel + 360)))
                360))
          ∧ 0 ≤ hue_opencv ieee754 (atan2_degrees cell.data.mean_y_vel cell.data.mean_x_vel)
          ∧ hue_opencv ieee754 (atan2_degrees cell.data.mean_y_vel cell.data.mean_x_vel)
            ≤ 179)
      ∧ ∃ img : Mat,
        compute_dogm_image ieee754 atan2_degrees cvtColor_HSV2RGB
            addColorWheelToBottomRightCorner grid_map cells_with_velocity
          = addColorWheelToBottomRightCorner img
        ∧ ∀ row col : Nat, row < grid_map.getGridSize → col < grid_map.getGridSize →
          (∃ cell ∈ cells_with_velocity,
              static_cast_int cell.y = (row : Int) ∧ static_cast_int cell.x = (col : Int)) →
          ∃ cell ∈ cells_with_velocity,
            (static_cast_int cell.y = (row : Int) ∧ static_cast_int cell.x = (col : Int))
              ∧ img.pixel row col
                = cvtColor_HSV2RGB (Vec3b.ofInts
                    (hue_opencv ieee754
                      (atan2_degrees cell.data.mean_y_vel cell.data.mean_x_vel))
                    255 255)
              ∧ 0 ≤ hue_opencv ieee754
                  (atan2_degrees cell.data.mean_y_vel cell.data.mean_x_vel)
              ∧ hue_opencv ieee754
                  (atan2_degrees cell.data.mean_y_vel cell.data.mean_x_vel) ≤ 179 := by
  have hall : ∀ cell ∈ cells_with_velocity,
      hue_opencv ieee754 (atan2_degrees cell.data.mean_y_vel cell.data.mean_x_vel)
          = truncQ (fl32 (0.5 * realMod
              (fl32 (fl64 (atan2_degrees cell.data.mean_y_vel cell.data.mean_x_vel + 360)))
              360))
        ∧ 0 ≤ hue_opencv ieee754 (atan2_degrees cell.data.mean_y_vel cell.data.mean_x_vel)
        ∧ hue_opencv ieee754 (atan2_degrees cell.data.mean_y_vel cell.data.mean_x_vel)
          ≤ 179 :=
    fun cell hc => hue_opencv_ieee754 _ (hangle cell hc).1 (hangle cell hc).2
  refine ⟨hall, ?_⟩
  obtain ⟨img, himg, hpix⟩ := compute_dogm_image_pixels ieee754 atan2_degrees cvtColor_HSV2RGB
    addColorWheelToBottomRightCorner grid_map cells_with_velocity
  refine ⟨img, himg, ?_⟩
  intro row col hrow hcol hhit
  obtain ⟨cell, hc, haddr, hval⟩ := (hpix row col hrow hcol).2 hhit
  exact ⟨cell, hc, haddr, hval, (hall cell hc).2.1, (hall cell hc).2.2⟩

/-- C8, amended. For a grid position whose measurement cell and grid cell carry the same
masses, `float` values with `free_mass ≥ 0`, `occ_mass ≥ 0`, `free_mass + occ_mass ≤ 1`,
the pixel of `compute_measurement_grid_image` and the pixel `compute_dogm_image` writes
before any overlay hold the same gray level in all three channels: with `p` the `float`
value `pignistic_transformation` returns and `fl(255 * p)` the `float` product, it is
`255 - trunc(fl(255 * p)) = 255 - floor(fl(255 * p))`, it lies in `[0, 255]`, and it is
`0` for `occ_mass = 1` and `255` for `free_mass = 1`. -/
theorem occupancy_gray_levels_agree (atan2_degrees : ℚ → ℚ → ℚ)
    (cvtColor_HSV2RGB : Vec3b → Vec3b) (addColorWheelToBottomRightCorner : Mat → Mat)
    (grid_map : DOGM) (cells_with_velocity : List (Point GridCell)) (x y : Nat)
    (mcell : MeasurementCell) (gcell : GridCell)
    (hx : x < grid_map.getGridSize) (hy : y < grid_map.getGridSize)
    (hm : grid_map.meas_cell_array[y * grid_map.getGridSize + x]? = some mcell)
    (hg : grid_map.grid_cell_array[y * grid_map.getGridSize + x]? = some gcell)
    (hfree : gcell.free_mass = mcell.free_mass) (hocc : gcell.occ_mass = mcell.occ_mass)
    (hrep : fl32 mcell.free_mass = mcell.free_mass)
    (hf : 0 ≤ mcell.free_mass) (ho : 0 ≤ mcell.occ_mass)
    (hsum : mcell.free_mass + mcell.occ_mass ≤ 1)
    (hnone : ∀ cell ∈ cells_with_velocity,
      ¬ (static_cast_int cell.y = (y : Int) ∧ static_cast_int cell.x = (x : Int))) :
    (compute_measurement_grid_image ieee754 grid_map).pixel y x
        = ⟨measurement_grid_gray ieee754 mcell.free_mass mcell.occ_mass,
            measurement_grid_gray ieee754 mcell.free_mass mcell.occ_mass,
            measurement_grid_gray ieee754 mcell.free_mass mcell.occ_mass⟩
      ∧ (∃ img : Mat,
          compute_dogm_image ieee754 atan2_degrees cvtColor_HSV2RGB
              addColorWheelToBottomRightCorner grid_map cells_with_velocity
            = addColorWheelToBottomRightCorner img
          ∧ img.pixel y x
            = ⟨measurement_grid_gray ieee754 mcell.free_mass mcell.occ_mass,
                measurement_grid_gray ieee754 mcell.free_mass mcell.occ_mass,
                measurement_grid_gray ieee754 mcell.free_mass mcell.occ_mass⟩)
      ∧ measurement_grid_gray ieee754 mcell.free_mass mcell.occ_mass
        = dogm_grayscale_value ieee754 gcell.free_mass gcell.occ_mass
      ∧ measurement_grid_gray ieee754 mcell.free_mass mcell.occ_mass
        = 255 - truncQ (fl32
            (pignistic_transformation_fl ieee754 mcell.free_mass mcell.occ_mass * 255))
      ∧ measurement_grid_gray ieee754 mcell.free_mass mcell.occ_mass
        = 255 - ⌊fl32
            (pignistic_transformation_fl ieee754 mcell.free_mass mcell.occ_mass * 255)⌋
      ∧ 0 ≤ measurement_grid_gray ieee754 mcell.free_mass mcell.occ_mass
      ∧ measurement_grid_gray ieee754 mcell.free_mass mcell.occ_mass ≤ 255
      ∧ (mcell.occ_mass = 1 →
          measurement_grid_gray ieee754 mcell.free_mass mcell.occ_mass = 0)
      ∧ (mcell.free_mass = 1 →
          measurement_grid_gray ieee754 mcell.free_mass mcell.occ_mass = 255) := by
  obtain ⟨h1, h2, h3, h4, h5⟩ :=
    gray_levels_fl mcell.free_mass mcell.occ_mass hrep hf ho hsum
  have hgetm : grid_map.meas_cell_array.getD (y * grid_map.getGridSize + x) default = mcell := by
    simp [List.getD_eq_getElem?_getD, hm]
  have hgetg : grid_map.grid_cell_array.getD (y * grid_map.getGridSize + x) default = gcell := by
    simp [List.getD_eq_getElem?_getD, hg]
  have hagree : measurement_grid_gray ieee754 mcell.free_mass mcell.occ_mass
      = dogm_grayscale_value ieee754 gcell.free_mass gcell.occ_mass := by
    rw [hfree, hocc, h1, h2]
  have hmeas : (compute_measurement_grid_image ieee754 grid_map).pixel y x
      = ⟨measurement_grid_gray ieee754 mcell.free_mass mcell.occ_mass,
          measurement_grid_gray ieee754 mcell.free_mass mcell.occ_mass,
          measurement_grid_gray ieee754 mcell.free_mass mcell.occ_mass⟩ := by
    have h := forEachCell_setPixel_pixel grid_map.getGridSize
      (fun index => (⟨measurement_grid_gray ieee754
          (grid_map.meas_cell_array.getD index default).free_mass
          (grid_map.meas_cell_array.getD index default).occ_mass,
        measurement_grid_gray ieee754
          (grid_map.meas_cell_array.getD index default).free_mass
          (grid_map.meas_cell_array.getD index default).occ_mass,
        measurement_grid_gray ieee754
          (grid_map.meas_cell_array.getD index default).free_mass
          (grid_map.meas_cell_array.getD index default).occ_mass⟩ : Vec3b)) default x y hx hy
    beta_reduce at h
    rw [hgetm] at h
    exact h
  have hdogm : ∃ img : Mat,
      compute_dogm_image ieee754 atan2_degrees cvtColor_HSV2RGB
          addColorWheelToBottomRightCorner grid_map cells_with_velocity
        = addColorWheelToBottomRightCorner img
      ∧ img.pixel y x
        = ⟨measurement_grid_gray ieee754 mcell.free_mass mcell.occ_mass,
            measurement_grid_gray ieee754 mcell.free_mass mcell.occ_mass,
            measurement_grid_gray ieee754 mcell.free_mass mcell.occ_mass⟩ := by
    obtain ⟨img, himg, hpix⟩ := compute_dogm_image_pixels ieee754 atan2_degrees
      cvtColor_HSV2RGB addColorWheelToBottomRightCorner grid_map cells_with_velocity
    refine ⟨img, himg, ?_⟩
    have h := (hpix y x hy hx).1 hnone
    rw [hgetg, ← hagree] at h
    exact h
  refine ⟨hmeas, hdogm, hagree, ?_, h1, by rw [h1]; omega, by rw [h1]; omega, ?_, ?_⟩
  · rw [truncQ_of_nonneg h5]; exact h1
  · intro h
    have hfz : mcell.free_mass = 0 := by linarith
    rw [h1, h, hfz, pignistic_fl_occupied, floor_fl32_255]
    norm_num
  · intro h
    have hoz : mcell.occ_mass = 0 := by linarith
    rw [h1, h, hoz, pignistic_fl_free, floor_fl32_zero]
    norm_num

end Dogm

namespace Dogm

/-! ### The lists returned on the example grids -/

theorem computeCellsWithVelocity_twoByTwoGrid :
    computeCellsWithVelocity ieee754 twoByTwoGrid 1 1 (-1)
      = [⟨0, 0, movingCell, -1⟩, ⟨0, 1, movingCell, -1⟩, ⟨1, 1, movingCell, -1⟩] := by
  have hc : cellCoords 2 = [(0, 0), (0, 1), (1, 0), (1, 1)] := by decide
  have hv := velocity_unit_x movingCell rfl rfl rfl rfl rfl
  rw [computeCellsWithVelocity_eq]
  have hn : twoByTwoGrid.getGridSize = 2 := rfl
  rw [hn, hc]
  simp [twoByTwoGrid, List.filter_cons, pignistic_movingCell, pignistic_emptyCell, hv,
    velocity_emptyCell]

end Dogm

namespace Dogm

/-! ## Further instances at concrete inputs -/

/-- The order property of C9 on `twoByTwoGrid`, where three of the four cells are
returned: the indices of the returned points are `0 < 2 < 3`. -/
theorem computeCellsWithVelocity_row_major_witness :
    twoByTwoGrid.grid_cell_array.length
        = twoByTwoGrid.getGridSize * twoByTwoGrid.getGridSize
      ∧ computeCellsWithVelocity ieee754 twoByTwoGrid 1 1 (-1)
        = [⟨0, 0, movingCell, -1⟩, ⟨0, 1, movingCell, -1⟩, ⟨1, 1, movingCell, -1⟩]
      ∧ (computeCellsWithVelocity ieee754 twoByTwoGrid 1 1 (-1)).map
          (pointIndex twoByTwoGrid.getGridSize) = [0, 2, 3]
      ∧ List.Pairwise
          (fun p q => pointIndex twoByTwoGrid.getGridSize p
            < pointIndex twoByTwoGrid.getGridSize q)
          (computeCellsWithVelocity ieee754 twoByTwoGrid 1 1 (-1))
      ∧ (computeCellsWithVelocity ieee754 twoByTwoGrid 1 1 (-1)).Nodup
      ∧ (computeCellsWithVelocity ieee754 twoByTwoGrid 1 1 (-1)).length
          ≤ twoByTwoGrid.getGridSize * twoByTwoGrid.getGridSize
      ∧ ∀ p ∈ computeCellsWithVelocity ieee754 twoByTwoGrid 1 1 (-1),
          ∃ x y : Nat, x < twoByTwoGrid.getGridSize ∧ y < twoByTwoGrid.getGridSize
            ∧ p.x = (x : ℚ) ∧ p.y = (y : ℚ)
            ∧ twoByTwoGrid.grid_cell_array[y * twoByTwoGrid.getGridSize + x]? = some p.data
            ∧ p.cluster_id = -1 :=
  have h := computeCellsWithVelocity_row_major ieee754 twoByTwoGrid 1 1 (-1) rfl
  ⟨rfl, computeCellsWithVelocity_twoByTwoGrid,
    by
      rw [computeCellsWithVelocity_twoByTwoGrid]
      have hn : twoByTwoGrid.getGridSize = 2 := rfl
      rw [hn]
      simp [pointIndex, static_cast_int, truncQ],
    h.1, h.2.2.1, h.2.2.2.1, h.2.2.2.2⟩

end Dogm

namespace Dogm

theorem fl32_faint_occ : fl32 faintMeasurement.occ_mass = faintMeasurement.occ_mass :=
  roundBinary_eq_of_repr 24 (-126) _ (-7) 12632256 (by norm_num)
    (by norm_num [faintMeasurement]) (by norm_num [faintMeasurement])
    (by norm_num [faintMeasurement])

/-- The pixel of `compute_measurement_grid_image` on `faintGrid`. -/
theorem measurement_pixel_faintGrid :
    (compute_measurement_grid_image ieee754 faintGrid).pixel 0 0 = ⟨126, 126, 126⟩ := by
  have h := forEachCell_setPixel_pixel faintGrid.getGridSize
    (fun index => (⟨measurement_grid_gray ieee754
        (faintGrid.meas_cell_array.getD index default).free_mass
        (faintGrid.meas_cell_array.getD index default).occ_mass,
      measurement_grid_gray ieee754
        (faintGrid.meas_cell_array.getD index default).free_mass
        (faintGrid.meas_cell_array.getD index default).occ_mass,
      measurement_grid_gray ieee754
        (faintGrid.meas_cell_array.getD index default).free_mass
        (faintGrid.meas_cell_array.getD index default).occ_mass⟩ : Vec3b)) default 0 0
    (by decide) (by decide)
  beta_reduce at h
  have hget : faintGrid.meas_cell_array.getD (0 * faintGrid.getGridSize + 0) default
      = faintMeasurement := rfl
  rw [hget, gray_faintMeasurement.1] at h
  exact h

/-- The pixel `compute_dogm_image` writes for one cell at `(0, 0)` of a `1 × 1` grid, with
the colour conversion and the colour wheel left out. -/
theorem dogm_pixel_single (a : ℚ) :
    (compute_dogm_image ieee754 (fun _ _ => a) (fun v => v) (fun img => img) singleCellGrid
        [⟨0, 0, movingCell, -1⟩]).pixel 0 0
      = Vec3b.ofInts (hue_opencv ieee754 a) 255 255 := by
  obtain ⟨img, himg, hpix⟩ := compute_dogm_image_pixels ieee754 (fun _ _ => a) (fun v => v)
    (fun img => img) singleCellGrid [⟨0, 0, movingCell, -1⟩]
  have hzero : static_cast_int (0 : ℚ) = 0 := by simp [static_cast_int, truncQ]
  obtain ⟨cell, _, _, hval⟩ := (hpix 0 0 (by decide) (by decide)).2
    ⟨⟨0, 0, movingCell, -1⟩, List.mem_singleton.mpr rfl, by simpa using hzero,
      by simpa using hzero⟩
  rw [himg]
  exact hval

end Dogm

namespace Dogm

/-- C6, as stated, fails on the machine: for the direction `a = -2 ^ (-27)` degrees the
sum `a + 360` is rounded to `360.0f` before the remainder is taken, so the hue written is
`0`, while `trunc(0.5 * ((a + 360) mod 360))` is `179`. -/
theorem hue_opencv_rounds_before_remainder :
    (-180 : ℚ) ≤ -(1 / 134217728) ∧ -(1 / 134217728 : ℚ) ≤ 180
      ∧ fl64 (-(1 / 134217728)) = -(1 / 134217728)
      ∧ hue_opencv ieee754 (-(1 / 134217728)) = 0
      ∧ (compute_dogm_image ieee754 (fun _ _ => -(1 / 134217728)) (fun v => v)
            (fun img => img) singleCellGrid [⟨0, 0, movingCell, -1⟩]).pixel 0 0
          = ⟨0, 255, 255⟩
      ∧ truncQ ((0.5 : ℚ) * realMod (-(1 / 134217728) + 360) 360) = 179 := by
  refine ⟨by norm_num, by norm_num, ?_, hue_opencv_small_negative, ?_,
    hue_exact_small_negative⟩
  · have hb : binadeExp (-1022) (-(1 / 134217728 : ℚ)) = -27 :=
      binadeExp_eq (by norm_num [abs_of_pos]) (by norm_num [abs_of_pos]) (by norm_num)
    exact roundBinary_eq_self 53 (-1022) _ (-4503599627370496) (by rw [hb]; norm_num)
  · rw [dogm_pixel_single, hue_opencv_small_negative]
    rfl

/-- The hue of C6 on the `1 × 1` grid with one velocity cell of direction `90`
degrees. -/
theorem compute_dogm_image_hue_witness :
    (∀ cell ∈ [(⟨0, 0, movingCell, -1⟩ : Point GridCell)],
        -180 ≤ (fun (_ _ : ℚ) => (90 : ℚ)) cell.data.mean_y_vel cell.data.mean_x_vel
          ∧ (fun (_ _ : ℚ) => (90 : ℚ)) cell.data.mean_y_vel cell.data.mean_x_vel ≤ 180)
      ∧ ∃ img : Mat,
        compute_dogm_image ieee754 (fun _ _ => 90) (fun v => v) (fun img => img)
            singleCellGrid [⟨0, 0, movingCell, -1⟩] = img
        ∧ ∀ row col : Nat, row < singleCellGrid.getGridSize →
          col < singleCellGrid.getGridSize →
          (∃ cell ∈ [(⟨0, 0, movingCell, -1⟩ : Point GridCell)],
              static_cast_int cell.y = (row : Int) ∧ static_cast_int cell.x = (col : Int)) →
          ∃ cell ∈ [(⟨0, 0, movingCell, -1⟩ : Point GridCell)],
            (static_cast_int cell.y = (row : Int) ∧ static_cast_int cell.x = (col : Int))
              ∧ img.pixel row col = Vec3b.ofInts (hue_opencv ieee754 90) 255 255
              ∧ 0 ≤ hue_opencv ieee754 90 ∧ hue_opencv ieee754 90 ≤ 179 :=
  ⟨fun _ _ => by norm_num,
    (compute_dogm_image_hue (fun _ _ => 90) (fun v => v) (fun img => img) singleCellGrid
      [⟨0, 0, movingCell, -1⟩] (fun _ _ => by norm_num)).2⟩

/-- C8, as stated, fails on the machine: for the `float` masses of `faintMeasurement`,
which satisfy the invariant, both renderers compute the gray level `126`, while
`255 - trunc(255 * p)` and `255 - floor(255 * p)` with `p` the pignistic occupancy of exact
arithmetic are `127`. -/
theorem gray_level_uses_rounded_occupancy :
    fl32 faintMeasurement.free_mass = faintMeasurement.free_mass
      ∧ fl32 faintMeasurement.occ_mass = faintMeasurement.occ_mass
      ∧ 0 ≤ faintMeasurement.free_mass ∧ 0 ≤ faintMeasurement.occ_mass
      ∧ faintMeasurement.free_mass + faintMeasurement.occ_mass ≤ 1
      ∧ (compute_measurement_grid_image ieee754 faintGrid).pixel 0 0 = ⟨126, 126, 126⟩
      ∧ dogm_grayscale_value ieee754 faintMeasurement.free_mass faintMeasurement.occ_mass
        = 126
      ∧ 255 - truncQ (255 * pignistic_transformation faintMeasurement.free_mass
          faintMeasurement.occ_mass) = 127
      ∧ 255 - ⌊255 * pignistic_transformation faintMeasurement.free_mass
          faintMeasurement.occ_mass⌋ = 127 := by
  have hnn : (0 : ℚ) ≤ 255 * pignistic_transformation faintMeasurement.free_mass
      faintMeasurement.occ_mass := by
    norm_num [pignistic_transformation, faintMeasurement]
  refine ⟨fl32_zero, fl32_faint_occ, by norm_num [faintMeasurement],
    by norm_num [faintMeasurement], by norm_num [faintMeasurement],
    measurement_pixel_faintGrid, gray_faintMeasurement.2, gray_exact_faintMeasurement, ?_⟩
  rw [← truncQ_of_nonneg hnn]
  exact gray_exact_faintMeasurement

/-- The gray levels of C8 at the single position of `halfOccupiedGrid`. -/
theorem occupancy_gray_levels_agree_witness :
    0 < halfOccupiedGrid.getGridSize
      ∧ halfOccupiedGrid.meas_cell_array[0 * halfOccupiedGrid.getGridSize + 0]?
        = some halfOccupiedMeasurement
      ∧ halfOccupiedGrid.grid_cell_array[0 * halfOccupiedGrid.getGridSize + 0]?
        = some halfOccupiedCell
      ∧ fl32 halfOccupiedMeasurement.free_mass = halfOccupiedMeasurement.free_mass
      ∧ 0 ≤ halfOccupiedMeasurement.free_mass ∧ 0 ≤ halfOccupiedMeasurement.occ_mass
      ∧ halfOccupiedMeasurement.free_mass + halfOccupiedMeasurement.occ_mass ≤ 1
      ∧ (compute_measurement_grid_image ieee754 halfOccupiedGrid).pixel 0 0
        = ⟨measurement_grid_gray ieee754 halfOccupiedMeasurement.free_mass
              halfOccupiedMeasurement.occ_mass,
            measurement_grid_gray ieee754 halfOccupiedMeasurement.free_mass
              halfOccupiedMeasurement.occ_mass,
            measurement_grid_gray ieee754 halfOccupiedMeasurement.free_mass
              halfOccupiedMeasurement.occ_mass⟩
      ∧ (∃ img : Mat,
          compute_dogm_image ieee754 (fun _ _ => 0) (fun v => v) (fun img => img)
              halfOccupiedGrid [] = img
          ∧ img.pixel 0 0
            = ⟨measurement_grid_gray ieee754 halfOccupiedMeasurement.free_mass
                  halfOccupiedMeasurement.occ_mass,
                measurement_grid_gray ieee754 halfOccupiedMeasurement.free_mass
                  halfOccupiedMeasurement.occ_mass,
                measurement_grid_gray ieee754 halfOccupiedMeasurement.free_mass
                  halfOccupiedMeasurement.occ_mass⟩)
      ∧ measurement_grid_gray ieee754 halfOccupiedMeasurement.free_mass
          halfOccupiedMeasurement.occ_mass
        = dogm_grayscale_value ieee754 halfOccupiedCell.free_mass halfOccupiedCell.occ_mass :=
  have h := occupancy_gray_levels_agree (fun _ _ => 0) (fun v => v) (fun img => img)
    halfOccupiedGrid [] 0 0 halfOccupiedMeasurement halfOccupiedCell (by decide) (by decide)
    rfl rfl rfl rfl fl32_quarter (by norm_num [halfOccupiedMeasurement])
    (by norm_num [halfOccupiedMeasurement]) (by norm_num [halfOccupiedMeasurement])
    (fun _ hc => by cases hc)
  ⟨by decide, rfl, rfl, fl32_quarter, by norm_num [halfOccupiedMeasurement],
    by norm_num [halfOccupiedMeasurement], by norm_num [halfOccupiedMeasurement],
    h.1, h.2.1, h.2.2.1⟩

end Dogm
